import Mathlib

/-!
Verification development for the restcli hierarchical path projection engine.

The Rust sources (src/cli.rs, src/prefix.rs, src/format.rs, src/config.rs)
are shallowly embedded below.  Strings are modelled as `List Char`; the Rust
code compares and slices paths byte-wise, and since UTF-8 preserves code-point
order and every delimiter handled by the code ('/') is a single-byte
character, the character-list model agrees with the byte model on every
operation performed (comparison, splitting on '/', slicing at boundaries that
are sums of component lengths).

Recursive procedures whose Rust termination argument is not structural
(the schema resolver, which recurses over a nested schema tree while looping
over fetched payload entries, and the binary search loop) are embedded with an
explicit fuel parameter that merely bounds recursion depth; exhaustion yields
a distinguished error that an actual run with sufficient fuel never reaches.
All theorems either hold for every fuel value or supply a concrete sufficient
fuel.
-/

/-- Strings as lists of characters (byte order of the Rust code agrees with
the character order used here, see the module comment). -/
abbrev Str := List Char

/-- Embeds a Lean string literal into the model. -/
def toStr (s : String) : Str := s.data

/-- Three-way comparison of characters, mirroring byte comparison in Rust. -/
def ccmp (a b : Char) : Ordering :=
  if a < b then .lt else if b < a then .gt else .eq

/-- Lexicographic three-way comparison of strings, mirroring Rust
`str::cmp` (byte-wise lexicographic order). -/
def lcmp : Str → Str → Ordering
  | [], [] => .eq
  | [], _ :: _ => .lt
  | _ :: _, [] => .gt
  | a :: as_, b :: bs =>
    match ccmp a b with
    | .lt => .lt
    | .gt => .gt
    | .eq => lcmp as_ bs

/-- Model of Rust `str::trim_start_matches(c)`: drop every leading `c`. -/
def trimStartChar (c : Char) : Str → Str
  | [] => []
  | a :: rest => if a = c then trimStartChar c rest else a :: rest

/-- Model of Rust `str::trim_end_matches(c)`: drop every trailing `c`. -/
def trimEndChar (c : Char) (s : Str) : Str :=
  (trimStartChar c s.reverse).reverse

/-- Model of Rust `str::trim_matches(c)`: drop leading and trailing `c`. -/
def trimChar (c : Char) (s : Str) : Str :=
  trimEndChar c (trimStartChar c s)

/-- Model of Rust `str::rsplit_once(c)`: split at the last occurrence of `c`,
returning the parts before and after it, or `none` when `c` does not occur. -/
def rsplitOnce (c : Char) : Str → Option (Str × Str)
  | [] => none
  | a :: rest =>
    match rsplitOnce c rest with
    | some (l, r) => some (a :: l, r)
    | none => if a = c then some ([], rest) else none

/-- Model of Rust `str::split(c)` collected into a vector: the list of
chunks between occurrences of `c`; always non-empty. -/
def splitChar (c : Char) : Str → List Str
  | [] => [[]]
  | a :: rest =>
    match splitChar c rest with
    | [] => [[a]]
    | s :: ss => if a = c then [] :: s :: ss else (a :: s) :: ss

/-- Model of Rust `str::ends_with(c)` for a single character pattern. -/
def endsWithChar (c : Char) (s : Str) : Bool :=
  match s.getLast? with
  | some d => d = c
  | none => false

/-- Predicate form of Rust `str::starts_with`: `p` is a literal prefix. -/
def isPfx (p s : Str) : Bool := p.isPrefixOf s

theorem lcmp_self (a : Str) : lcmp a a = .eq := by
  induction a with
  | nil => rfl
  | cons c rest ih => simp [lcmp, ccmp, ih]

theorem ccmp_eq_iff {a b : Char} : ccmp a b = .eq ↔ a = b := by
  unfold ccmp
  rcases lt_trichotomy a b with h | h | h
  · simp [h, h.ne]
  · simp [h, lt_irrefl]
  · simp [h, not_lt_of_gt h, h.ne']

theorem ccmp_lt_iff {a b : Char} : ccmp a b = .lt ↔ a < b := by
  unfold ccmp
  rcases lt_trichotomy a b with h | h | h
  · simp [h]
  · simp [h, lt_irrefl]
  · simp [h, not_lt_of_gt h, not_lt_of_gt h]

theorem ccmp_gt_iff {a b : Char} : ccmp a b = .gt ↔ b < a := by
  unfold ccmp
  rcases lt_trichotomy a b with h | h | h
  · simp [h, not_lt_of_gt h]
  · simp [h, lt_irrefl]
  · simp [h, not_lt_of_gt h]

theorem lcmp_eq_iff {a b : Str} : lcmp a b = .eq ↔ a = b := by
  induction a generalizing b with
  | nil => cases b <;> simp [lcmp]
  | cons c rest ih =>
    cases b with
    | nil => simp [lcmp]
    | cons d bs =>
      unfold lcmp
      cases h : ccmp c d with
      | lt =>
        have : c ≠ d := fun he => by simp [he, ccmp_eq_iff.mpr rfl] at h
        simp [this]
      | gt =>
        have : c ≠ d := fun he => by simp [he, ccmp_eq_iff.mpr rfl] at h
        simp [this]
      | eq =>
        have hcd : c = d := ccmp_eq_iff.mp h
        subst hcd
        simp [ih]

theorem ccmp_swap {a b : Char} : ccmp a b = .lt ↔ ccmp b a = .gt := by
  rw [ccmp_lt_iff, ccmp_gt_iff]

theorem lcmp_swap {a b : Str} : lcmp a b = .lt ↔ lcmp b a = .gt := by
  induction a generalizing b with
  | nil => cases b <;> simp [lcmp]
  | cons c rest ih =>
    cases b with
    | nil => simp [lcmp]
    | cons d bs =>
      unfold lcmp
      cases h : ccmp c d with
      | lt =>
        have h2 : ccmp d c = .gt := ccmp_swap.mp h
        simp [h2]
      | gt =>
        have h2 : ccmp d c = .lt := ccmp_lt_iff.mpr (ccmp_gt_iff.mp h)
        simp [h2]
      | eq =>
        have hcd : c = d := ccmp_eq_iff.mp h
        subst hcd
        rw [ccmp_eq_iff.mpr rfl]
        exact ih

theorem ccmp_lt_trans {a b c : Char} (h1 : ccmp a b = .lt) (h2 : ccmp b c = .lt) :
    ccmp a c = .lt :=
  ccmp_lt_iff.mpr (lt_trans (ccmp_lt_iff.mp h1) (ccmp_lt_iff.mp h2))

theorem lcmp_cons_cons (a b : Char) (as_ bs : Str) :
    lcmp (a :: as_) (b :: bs) =
      match ccmp a b with
      | .lt => .lt
      | .gt => .gt
      | .eq => lcmp as_ bs := rfl

theorem lcmp_lt_trans {a b c : Str} (h1 : lcmp a b = .lt) (h2 : lcmp b c = .lt) :
    lcmp a c = .lt := by
  induction a generalizing b c with
  | nil =>
    cases b with
    | nil => exact absurd h1 (by simp [lcmp])
    | cons d bs => cases c with
      | nil => exact absurd h2 (by simp [lcmp])
      | cons e cs => simp [lcmp]
  | cons x xs ih =>
    cases b with
    | nil => exact absurd h1 (by simp [lcmp])
    | cons d bs =>
      cases c with
      | nil => exact absurd h2 (by simp [lcmp])
      | cons e cs =>
        rw [lcmp_cons_cons] at h1 h2 ⊢
        cases hxd : ccmp x d with
        | gt => rw [hxd] at h1; simp at h1
        | lt =>
          rw [hxd] at h1
          cases hde : ccmp d e with
          | lt => rw [ccmp_lt_trans hxd hde]
          | gt => rw [hde] at h2; simp at h2
          | eq =>
            have : d = e := ccmp_eq_iff.mp hde
            subst this
            rw [hxd]
        | eq =>
          have hxd2 : x = d := ccmp_eq_iff.mp hxd
          subst hxd2
          rw [hxd] at h1
          simp only at h1
          cases hde : ccmp x e with
          | lt => simp
          | gt => rw [hde] at h2; simp at h2
          | eq =>
            rw [hde] at h2
            simp only at h2 ⊢
            exact ih h1 h2

/-- Totality of the comparison: `gt` one way round is `lt` the other. -/
theorem lcmp_gt_iff {a b : Str} : lcmp a b = .gt ↔ lcmp b a = .lt := lcmp_swap.symm

/-- Every prefix compares less-or-equal with its extension. -/
theorem lcmp_of_pfx {p s : Str} (h : p <+: s) : lcmp p s ≠ .gt := by
  induction p generalizing s with
  | nil => cases s <;> simp [lcmp]
  | cons c rest ih =>
    obtain ⟨t, ht⟩ := h
    subst ht
    simp only [List.cons_append, lcmp]
    have : ccmp c c = .eq := ccmp_eq_iff.mpr rfl
    rw [this]
    exact ih ⟨t, rfl⟩

/-- Strings lying between a prefix `p` and an extension of `p` also have
prefix `p`: the key contiguity fact behind every range query. -/
theorem pfx_of_between {p x a : Str} (hpa : p <+: a)
    (hpx : lcmp p x ≠ .gt) (hxa : lcmp x a ≠ .gt) : p <+: x := by
  induction p generalizing x a with
  | nil => exact x.nil_prefix
  | cons c rest ih =>
    cases x with
    | nil =>
      exfalso
      apply hpx
      simp [lcmp]
    | cons d xs =>
      obtain ⟨t, ht⟩ := hpa
      subst ht
      simp only [List.cons_append, lcmp] at hpx hxa ⊢
      cases hcd : ccmp c d with
      | lt =>
        rw [hcd] at hpx
        exfalso
        have hdc : ccmp d c = .gt := ccmp_swap.mp hcd
        rw [hdc] at hxa
        exact hxa rfl
      | gt =>
        rw [hcd] at hpx
        exact absurd rfl hpx
      | eq =>
        have : c = d := ccmp_eq_iff.mp hcd
        subst this
        rw [hcd] at hpx
        rw [ccmp_eq_iff.mpr rfl] at hxa
        exact (List.prefix_cons_inj c).mpr (ih ⟨t, rfl⟩ hpx hxa)

/-- Non-prefixes at-or-above the prefix compare strictly greater. -/
theorem lcmp_gt_of_not_pfx {p x : Str} (hle : lcmp p x ≠ .gt) (hnp : ¬ p <+: x) :
    lcmp x p = .gt := by
  cases h : lcmp x p with
  | lt => exact absurd (lcmp_swap.mp h) hle
  | eq => exact absurd (lcmp_eq_iff.mp h) (fun he => hnp (he ▸ List.prefix_refl x))
  | gt => rfl

/-! ## Binary search (model of Rust `slice::binary_search_by`)

The Rust standard library's `binary_search_by` maintains `left`/`right`
bounds, probes `mid = left + (right - left) / 2`, and returns `Ok(mid)` on an
`Equal` comparison or `Err(left)` once the window closes.  The loop is
embedded with a fuel parameter (one unit per iteration); `xs.length + 1`
units always suffice. -/

def bsGo {α : Type} [Inhabited α] (f : α → Ordering) (xs : List α) :
    Nat → Nat → Nat → Except Nat Nat
  | 0, left, _ => .error left
  | fuel+1, left, right =>
    if left < right then
      match f (xs.getD (left + (right - left) / 2) default) with
      | .lt => bsGo f xs fuel (left + (right - left) / 2 + 1) right
      | .gt => bsGo f xs fuel left (left + (right - left) / 2)
      | .eq => .ok (left + (right - left) / 2)
    else .error left

/-- Model of Rust `records.binary_search_by(f)`. -/
def binary_search_by {α : Type} [Inhabited α] (xs : List α) (f : α → Ordering) :
    Except Nat Nat :=
  bsGo f xs (xs.length + 1) 0 xs.length

theorem bsGo_ok {α : Type} [Inhabited α] {f : α → Ordering} {xs : List α} :
    ∀ {fuel left right k}, right ≤ xs.length →
      bsGo f xs fuel left right = .ok k →
      k < xs.length ∧ f (xs.getD k default) = .eq := by
  intro fuel
  induction fuel with
  | zero => intro left right k _ h; simp [bsGo] at h
  | succ n ih =>
    intro left right k hr h
    rw [bsGo] at h
    split at h
    · rename_i hlr
      have hmid : left + (right - left) / 2 < right := by omega
      cases hf : f (xs.getD (left + (right - left) / 2) default) with
      | lt => rw [hf] at h; exact ih hr h
      | gt => rw [hf] at h; exact ih (le_trans (le_of_lt hmid) hr) h
      | eq =>
        rw [hf] at h
        simp only [Except.ok.injEq] at h
        subst h
        exact ⟨lt_of_lt_of_le hmid hr, hf⟩
    · simp at h

theorem bsGo_boundary {α : Type} [Inhabited α] {f : α → Ordering} {xs : List α} {b : Nat}
    (hlt : ∀ i, i < xs.length → i < b → f (xs.getD i default) = .lt)
    (hge : ∀ i, i < xs.length → b ≤ i → f (xs.getD i default) ≠ .lt)
    (heq : ∀ i, i < xs.length → f (xs.getD i default) = .eq → i = b) :
    ∀ fuel left right, right - left < fuel → left ≤ b → b ≤ right → right ≤ xs.length →
      bsGo f xs fuel left right = .error b ∨ bsGo f xs fuel left right = .ok b := by
  intro fuel
  induction fuel with
  | zero => intro left right hfuel _ _ _; omega
  | succ n ih =>
    intro left right hfuel hlb hbr hr
    rw [bsGo]
    split
    · rename_i hlr
      have hmid : left + (right - left) / 2 < right := by omega
      have hmidlen : left + (right - left) / 2 < xs.length := lt_of_lt_of_le hmid hr
      cases hf : f (xs.getD (left + (right - left) / 2) default) with
      | lt =>
        have hmb : left + (right - left) / 2 < b := by
          by_contra hc
          exact hge _ hmidlen (by omega) hf
        exact ih _ _ (by omega) (by omega) hbr hr
      | gt =>
        have hbm : b ≤ left + (right - left) / 2 := by
          by_contra hc
          rw [hlt _ hmidlen (by omega)] at hf
          simp at hf
        exact ih _ _ (by omega) hlb hbm (le_trans (le_of_lt hmid) hr)
      | eq =>
        right
        rw [heq _ hmidlen hf]
    · left
      congr 1
      omega

theorem binary_search_by_boundary {α : Type} [Inhabited α] {f : α → Ordering}
    {xs : List α} {b : Nat}
    (hlt : ∀ i, i < xs.length → i < b → f (xs.getD i default) = .lt)
    (hge : ∀ i, i < xs.length → b ≤ i → f (xs.getD i default) ≠ .lt)
    (heq : ∀ i, i < xs.length → f (xs.getD i default) = .eq → i = b)
    (hb : b ≤ xs.length) :
    binary_search_by xs f = .error b ∨ binary_search_by xs f = .ok b :=
  bsGo_boundary hlt hge heq _ 0 xs.length (by omega) (by omega) hb (le_refl _)

theorem binary_search_by_err {α : Type} [Inhabited α] {f : α → Ordering}
    {xs : List α} {b : Nat}
    (hlt : ∀ i, i < xs.length → i < b → f (xs.getD i default) = .lt)
    (hge : ∀ i, i < xs.length → b ≤ i → f (xs.getD i default) ≠ .lt)
    (hne : ∀ i, i < xs.length → f (xs.getD i default) ≠ .eq)
    (hb : b ≤ xs.length) :
    binary_search_by xs f = .error b := by
  have heq : ∀ i, i < xs.length → f (xs.getD i default) = .eq → i = b :=
    fun i hi he => absurd he (hne i hi)
  rcases binary_search_by_boundary hlt hge heq hb with h | h
  · exact h
  · exact absurd (bsGo_ok (le_refl _) h).2 (hne b (bsGo_ok (le_refl _) h).1)

theorem binary_search_by_ok {α : Type} [Inhabited α] {f : α → Ordering}
    {xs : List α} {k : Nat} (h : binary_search_by xs f = .ok k) :
    k < xs.length ∧ f (xs.getD k default) = .eq :=
  bsGo_ok (le_refl _) h

/-! ## Boundary counting on lists with a downward-closed predicate -/

theorem boundary_count {β : Type} [Inhabited β] (pred : β → Bool) (l : List β)
    (hdc : ∀ i j, i < l.length → j < l.length → i ≤ j →
      pred (l.getD j default) = true → pred (l.getD i default) = true) :
    ∀ i, i < l.length → (pred (l.getD i default) = true ↔ i < l.countP pred) := by
  induction l with
  | nil => intro i hi; simp at hi
  | cons x t ih =>
    intro i hi
    rw [List.countP_cons]
    cases hpx : pred x with
    | true =>
      cases i with
      | zero => simp [hpx]
      | succ j =>
        have hj : j < t.length := by simpa using hi
        have hdc' : ∀ i' j', i' < t.length → j' < t.length → i' ≤ j' →
            pred (t.getD j' default) = true → pred (t.getD i' default) = true := by
          intro i' j' hi' hj' hle hp
          exact hdc (i' + 1) (j' + 1) (by simpa) (by simpa) (by omega) hp
        have hrec := ih hdc' j hj
        rw [List.getD_cons_succ, hrec]
        simp
    | false =>
      have hall : ∀ j, j < (x :: t).length → pred ((x :: t).getD j default) = false := by
        intro j hj
        cases hpj : pred ((x :: t).getD j default) with
        | false => rfl
        | true =>
          have := hdc 0 j (by simp) hj (by omega) hpj
          simp [hpx] at this
      have hct : t.countP pred = 0 := by
        rw [List.countP_eq_zero]
        intro a ha
        obtain ⟨j, hj, hja⟩ := List.getElem_of_mem ha
        have h2 := hall (j + 1) (by simpa using hj)
        rw [List.getD_cons_succ, List.getD_eq_getElem t default hj, hja] at h2
        simp [h2]
      rw [hall i hi, hct]
      simp

/-! ## JSON values, schema nodes and the resolver (src/cli.rs, src/config.rs) -/

/-- JSON values as decoded by the transport collaborator (serde_json
`Value`); mapping entries keep their iteration order as a list. -/
inductive Value where
  | null
  | bool (b : Bool)
  | num (n : Int)
  | str (s : Str)
  | arr (items : List Value)
  | obj (entries : List (Str × Value))

instance : Inhabited Value := ⟨.null⟩

/-- Schema node, struct `API` of src/config.rs.  The `jsonpath` field (the
extraction expression) is modelled as the function it denotes on fetched
payloads, mirroring `jsonpath::find`. -/
inductive API where
  | mk (path : Str) (is_entity : Option Bool) (jsonpath : Option (Value → Value))
      (apis : Option (List API))

def API.path : API → Str
  | .mk p _ _ _ => p

def API.is_entity : API → Option Bool
  | .mk _ e _ _ => e

def API.jsonpath : API → Option (Value → Value)
  | .mk _ _ j _ => j

def API.apis : API → Option (List API)
  | .mk _ _ _ a => a

/-- Transport failures, plus the artificial fuel-exhaustion marker of the
embedding (see the module comment). -/
inductive Err where
  | transport (msg : Str)
  | outOfFuel

/-- Fetch oracle: models `Rest::get` (one blocking GET returning decoded
JSON, or a transport error). -/
abbrev Fetch := Str → Except Err Value

/-- Mutable state of struct `Querier` (its `results`, `more` and `root`
fields), extended with a ghost `skips` counter that counts how many times
the lazy-entity rule skipped a declared child expansion.  `skips` influences
nothing and exists only so that theorems can speak about skipped
expansions. -/
structure QState where
  results : List (Str × Value)
  more : Bool
  root : Option Str
  skips : Nat

/-- Payload narrowing: `jsonpath::find` applied when the node declares an
extraction expression, the identity otherwise. -/
def extractVal (api : API) (v : Value) : Value :=
  match api.jsonpath with
  | some jp => jp v
  | none => v

mutual
/-- Model of `Querier::query_apis` (the whole function, including the final
conditional assignment of `self.more` and `self.root`). -/
def query_apis (fetch : Fetch) (filter : Str) :
    Nat → List API → Str → QState → Except Err QState
  | 0, _, _, _ => .error .outOfFuel
  | fuel+1, apis, pfx, st =>
    match query_apis_loop fetch filter fuel apis pfx false st with
    | .error e => .error e
    | .ok (more, st1) =>
      if st1.root.isNone then .ok { st1 with more := more, root := some pfx }
      else .ok st1

/-- Model of the `for api in apis` loop inside `Querier::query_apis`; the
`Bool` argument threads the local `more` variable. -/
def query_apis_loop (fetch : Fetch) (filter : Str) :
    Nat → List API → Str → Bool → QState → Except Err (Bool × QState)
  | 0, _, _, _, _ => .error .outOfFuel
  | _+1, [], _, more, st => .ok (more, st)
  | fuel+1, api :: rest, pfx, more, st =>
    match fetch (pfx ++ trimStartChar '/' api.path) with
    | .error e => .error e
    | .ok v =>
      match extractVal api v with
      | .obj entries =>
        match query_entries fetch filter fuel api pfx entries more st with
        | .error e => .error e
        | .ok (more1, st1) => query_apis_loop fetch filter fuel rest pfx more1 st1
      | _ => query_apis_loop fetch filter fuel rest pfx more st

/-- Model of the `for (key, value) in records` loop inside
`Querier::query_apis`. -/
def query_entries (fetch : Fetch) (filter : Str) :
    Nat → API → Str → List (Str × Value) → Bool → QState → Except Err (Bool × QState)
  | 0, _, _, _, _, _ => .error .outOfFuel
  | _+1, _, _, [], more, st => .ok (more, st)
  | fuel+1, api, pfx, (key, value) :: tail, more, st =>
    match { st with results := st.results ++ [(pfx ++ trimChar '/' key, value)] } with
    | st1 =>
      if (api.apis.getD []).isEmpty then
        query_entries fetch filter fuel api pfx tail more st1
      else if api.is_entity ≠ some true ∨ isPfx (pfx ++ trimChar '/' key) filter then
        match query_apis fetch filter fuel (api.apis.getD [])
            (pfx ++ trimChar '/' key ++ ['/']) st1 with
        | .error e => .error e
        | .ok st2 => query_entries fetch filter fuel api pfx tail true st2
      else
        query_entries fetch filter fuel api pfx tail true { st1 with skips := st1.skips + 1 }
end

/-- Comparison result accepted by the sort: not strictly greater. -/
def ordNotGt : Ordering → Bool
  | .gt => false
  | _ => true

/-- Record order used by `sort_by(|a, b| a.0.cmp(&b.0))`. -/
def recLe (a b : Str × Value) : Bool := ordNotGt (lcmp a.1 b.1)

/-- Stable insertion into a sorted list: the new element goes after every
element less-or-equal to it, matching the stability of Rust `sort_by`. -/
def sortInsert (x : Str × Value) : List (Str × Value) → List (Str × Value)
  | [] => [x]
  | y :: ys => if recLe y x then y :: sortInsert x ys else x :: y :: ys

/-- Model of `self.results.sort_by(|a, b| a.0.cmp(&b.0))`.  Rust `sort_by` is
a stable merge sort; the stable insertion sort used here computes the same
permutation, because the stably-sorted order of a list is unique. -/
def sortByPath (l : List (Str × Value)) : List (Str × Value) :=
  l.foldl (fun acc x => sortInsert x acc) []

/-- Model of `Querier::query`: run `query_apis` anchored at "/", sort the
accumulated records by path, return `(more, root, records)`. -/
def Querier.query (fetch : Fetch) (apis : List API) (filter : Str) (fuel : Nat) :
    Except Err (Bool × Str × List (Str × Value)) :=
  match query_apis fetch filter fuel apis (toStr "/") ⟨[], false, none, 0⟩ with
  | .error e => .error e
  | .ok st => .ok (st.more, st.root.getD (toStr "/"), sortByPath st.results)

/-! ## The CLI session (src/cli.rs) -/

/-- Session state of struct `CLI`; the `rest` handle is replaced by the fetch
oracle passed to each operation. -/
structure CLIState where
  apis : List API
  more : Bool
  root : Str
  records : List (Str × Value)
  current_path : Str

/-- Model of `CLI::new` (the HTTP header setup lives inside the fetch
oracle). -/
def CLI.new (fetch : Fetch) (apis : List API) (fuel : Nat) : Except Err CLIState :=
  match Querier.query fetch apis (toStr "/") fuel with
  | .error e => .error e
  | .ok (more, root, records) => .ok ⟨apis, more, root, records, toStr "/"⟩

/-- Model of `Result::unwrap_or_else(|e| e)` on a binary search result. -/
def unwrapIdx : Except Nat Nat → Nat
  | .ok i => i
  | .error i => i

/-- Model of `CLI::filter_records`. -/
def CLI.filter_records (s : CLIState) : List (Str × Value) :=
  if s.current_path = toStr "/" then s.records
  else
    (s.records.drop
        (unwrapIdx (binary_search_by s.records (fun r => lcmp r.1 s.current_path)))).take
      (unwrapIdx (binary_search_by
        (s.records.drop
          (unwrapIdx (binary_search_by s.records (fun r => lcmp r.1 s.current_path))))
        (fun r => match isPfx s.current_path r.1 with
          | true => .lt
          | false => lcmp r.1 s.current_path)))

/-- Model of `CLI::refresh`: on success the `more`, `root` and `records`
fields are assigned from the query result; on error that assignment never
happens and the error is handed back. -/
def CLI.refresh (fetch : Fetch) (fuel : Nat) (s : CLIState) : CLIState × Option Err :=
  match Querier.query fetch s.apis s.current_path fuel with
  | .error e => (s, some e)
  | .ok (more, root, records) =>
    ({ s with more := more, root := root, records := records }, none)

/-- Observable console output of `CLI::change_directory`. -/
inductive CDMsg where
  | noSuchPath
  | backendFailed (e : Err)

/-- Model of the `match arg` heading `CLI::change_directory`: the
`(truncate, append)` pair. -/
def resolve_arg (current_path arg : Str) : Nat × Str :=
  if arg = toStr ".." then
    match rsplitOnce '/' (trimEndChar '/' current_path) with
    | some (left, _) => (left.length, [])
    | none => (0, [])
  else if isPfx (toStr "/") arg then (0, arg)
  else (current_path.length, arg)

/-- Candidate prefix built from `(truncate, append)` before validation (the
`prefix` local of `CLI::change_directory` at the binary search). -/
def cd_candidate (current_path arg : Str) : Str :=
  if (resolve_arg current_path arg).2 ≠ [] then
    (if ¬ isPfx (toStr "/") (resolve_arg current_path arg).2 ∧
        ¬ endsWithChar '/' (current_path.take (resolve_arg current_path arg).1) then
      current_path.take (resolve_arg current_path arg).1 ++ ['/']
    else current_path.take (resolve_arg current_path arg).1) ++
      (resolve_arg current_path arg).2
  else current_path.take (resolve_arg current_path arg).1

/-- Candidate prefix after the conditional slash append performed in the
`Err` branch of the binary search in `CLI::change_directory`. -/
def cd_candidate_slashed (current_path arg : Str) : Str :=
  if ¬ endsWithChar '/' (cd_candidate current_path arg) then
    cd_candidate current_path arg ++ ['/']
  else cd_candidate current_path arg

/-- Tail of `CLI::change_directory` after `self.current_path = prefix`:
decides whether a refresh runs and converts a refresh failure into the
printed backend-failure message. -/
def CLI.cd_commit (fetch : Fetch) (fuel : Nat) (s : CLIState) (append pfx : Str) :
    CLIState × Option CDMsg :=
  if append ≠ [] ∧ ¬ s.more then ({ s with current_path := pfx }, none)
  else if append = [] ∧ isPfx s.root pfx then ({ s with current_path := pfx }, none)
  else
    match CLI.refresh fetch fuel { s with current_path := pfx } with
    | (s2, some e) => (s2, some (.backendFailed e))
    | (s2, none) => (s2, none)

/-- Model of `CLI::change_directory`, returning the updated session together
with the message printed, if any. -/
def CLI.change_directory (fetch : Fetch) (fuel : Nat) (s : CLIState) (arg : Str) :
    CLIState × Option CDMsg :=
  if (resolve_arg s.current_path arg).1 = s.current_path.length ∧
      (resolve_arg s.current_path arg).2 = [] then (s, none)
  else
    match binary_search_by s.records (fun r => lcmp r.1 (cd_candidate s.current_path arg)) with
    | .ok _ =>
      CLI.cd_commit fetch fuel s (resolve_arg s.current_path arg).2
        (cd_candidate s.current_path arg)
    | .error index =>
      if index ≥ s.records.length ∨
          ¬ isPfx (cd_candidate_slashed s.current_path arg)
            (s.records.getD index default).1 then
        (s, some .noSuchPath)
      else
        CLI.cd_commit fetch fuel s (resolve_arg s.current_path arg).2
          (cd_candidate_slashed s.current_path arg)

/-! ## Prefix compression (src/prefix.rs) -/

/-- Maximum supported path depth (`MAX_LEVEL` of src/prefix.rs). -/
def MAX_LEVEL : Nat := 16

/-- Compressed prefix run (struct `Prefix`): shared text plus the half-open
index range `[start, stop)` of the flat list it governs. -/
structure PrefixRun where
  text : Str
  start : Nat
  stop : Nat
deriving DecidableEq

/-- Tokenized path (struct `Path` of src/prefix.rs). -/
structure PathT where
  raw : Str
  tokens : List Str

/-- Model of `Path::from(&str)`: tokens are the '/'-separated chunks of the
trimmed string. -/
def PathT.ofStr (raw : Str) : PathT :=
  ⟨raw, splitChar '/' (trimChar '/' raw)⟩

/-- Byte length of the suffix cut by `Path::pop(n)`: each popped token
accounts for its own length plus one separator. -/
def popLen (p : PathT) (n : Nat) : Nat :=
  (p.tokens.drop (p.tokens.length - n)).foldl (fun acc s => acc + s.length + 1) 0

/-- Model of `Path::pop(n)`: cut the last `n` tokens, returning the cut raw
suffix and the shortened path. -/
def PathT.pop (p : PathT) (n : Nat) : Str × PathT :=
  if n = 0 then ([], p)
  else
    (p.raw.drop (p.raw.length - popLen p n),
     ⟨p.raw.take (p.raw.length - popLen p n), p.tokens.take (p.tokens.length - n)⟩)

/-- Model of `Path::match_tokens`: length of the common token prefix. -/
def matchTokens : List Str → List Str → Nat
  | a :: as_, b :: bs => if a = b then matchTokens as_ bs + 1 else 0
  | _, _ => 0

/-- Model of `for i in 0..num_match { ref_counts[i] += 1 }`. -/
def incFirst : Nat → List Nat → List Nat
  | n+1, c :: cs => (c + 1) :: incFirst n cs
  | _, cs => cs

/-- State carried across iterations of the main loop of `Prefix::build`:
the reference path, the per-depth share counters and the runs pushed so far
(in push order, ranges still in reversed index space). -/
structure BuildSt where
  ref : PathT
  counts : List Nat
  runs : List PrefixRun

/-- Model of `for i in (num_match..ref_path.num_level()).rev()` inside the
main loop of `Prefix::build`.  The counter argument is the number of
remaining iterations, so the depth under scrutiny is `numMatch + n` when
`n + 1` iterations remain; `length` threads the like-named local. -/
def emitLoop (index numMatch : Nat) :
    Nat → PathT → List Nat → Nat → List PrefixRun → PathT × List PrefixRun
  | 0, ref, _, _, runs => (ref, runs)
  | n+1, ref, counts, length, runs =>
    if counts.getD (numMatch + n) 0 = 1 then
      emitLoop index numMatch n (ref.pop 1).2 counts length runs
    else if numMatch + n = 0 ∨
        counts.getD (numMatch + n) 0 < counts.getD (numMatch + n - 1) 0 then
      emitLoop index numMatch n (ref.pop length).2 counts 1
        (runs ++ [⟨(ref.pop length).1, index - counts.getD (numMatch + n) 0, index⟩])
    else if counts.getD (numMatch + n) 0 = counts.getD (numMatch + n - 1) 0 then
      emitLoop index numMatch n ref counts (length + 1) runs
    else
      emitLoop index numMatch n (ref.pop 1).2 counts length runs

/-- One iteration of the main `for (index, raw_path) in iter` loop of
`Prefix::build`. -/
def buildStep (st : BuildSt) (index : Nat) (raw : Str) : BuildSt :=
  match PathT.ofStr raw with
  | path =>
    match matchTokens st.ref.tokens path.tokens with
    | numMatch =>
      match incFirst numMatch st.counts with
      | counts1 =>
        match emitLoop index numMatch (st.ref.tokens.length - numMatch)
            st.ref counts1 1 st.runs with
        | (ref1, runs1) =>
          match counts1.take ref1.tokens.length with
          | counts2 =>
            if ref1.tokens.length < path.tokens.length then
              ⟨path, counts2 ++ List.replicate (path.tokens.length - counts2.length) 1, runs1⟩
            else ⟨ref1, counts2, runs1⟩

/-- The main loop of `Prefix::build` over the reversed path sequence,
with the enumeration index threaded. -/
def buildLoop : List Str → Nat → BuildSt → BuildSt
  | [], _, st => st
  | raw :: rest, index, st => buildLoop rest (index + 1) (buildStep st index raw)

/-- Model of the final flush loop `for i in (0..ref_path.num_level()).rev()`
of `Prefix::build`; the depth under scrutiny is `n` when `n + 1` iterations
remain. -/
def flushLoop (sum : Nat) :
    Nat → PathT → List Nat → Nat → List PrefixRun → List PrefixRun
  | 0, _, _, _, runs => runs
  | n+1, ref, counts, length, runs =>
    if n = 0 ∨ (1 < counts.getD n 0 ∧ counts.getD n 0 < counts.getD (n - 1) 0) then
      flushLoop sum n (ref.pop length).2 counts 1
        (runs ++ [⟨(ref.pop length).1, sum - counts.getD n 0, sum⟩])
    else if counts.getD n 0 = counts.getD (n - 1) 0 then
      flushLoop sum n ref counts (length + 1) runs
    else
      flushLoop sum n (ref.pop 1).2 counts length runs

/-- Model of `Prefix::build`: one backward pass over the lexically ordered
paths, a final flush, then reversal and re-mapping of the ranges from
reversed to forward index space. -/
def Prefix.build (paths : List Str) : List PrefixRun :=
  match paths.reverse with
  | [] => []
  | first :: rest =>
    match buildLoop rest 1
        ⟨PathT.ofStr first, List.replicate (PathT.ofStr first).tokens.length 1, []⟩ with
    | st1 =>
      (flushLoop paths.length st1.ref.tokens.length st1.ref st1.counts 1 st1.runs).reverse.map
        (fun r => ⟨r.text, paths.length - r.stop, paths.length - r.start⟩)

/-! ## Rendering (src/format.rs) -/

/-- Rendering context (struct `Context`): the global options plus the current
label and indentation.  The `yesno` array is a pair; Rust indexes it with
`*boolean as usize`, i.e. the first component for `false` and the second for
`true`. -/
structure Ctx where
  indent_width : Nat
  yesno : Str × Str
  keywords : Str → Option Str
  key : Str
  indent : Nat

/-- Model of `Context::default` / `Formatter::new` defaults: indent width 2,
yesno words `["yes", "no"]`, no keyword transform. -/
def Ctx.default : Ctx := ⟨2, (toStr "yes", toStr "no"), fun _ => none, [], 0⟩

/-- Model of the array indexing `ctx.yesno[*boolean as usize]`. -/
def yesnoIndex (yn : Str × Str) : Bool → Str
  | false => yn.1
  | true => yn.2

/-- Decimal rendering of numbers (serde_json numbers are modelled as
integers). -/
def numToStr (n : Int) : Str := (toString n).data

/-- Model of `Display for Wrapper`: scalars print their literal
representation (`true` / `false` for Booleans), containers print nothing. -/
def wrapperStr : Value → Str
  | .str s => s
  | .num n => numToStr n
  | .bool b => if b then toStr "true" else toStr "false"
  | _ => []

/-- Indentation padding `{:indent$}` with an empty string argument. -/
def spaces (n : Nat) : Str := List.replicate n ' '

/-- Model of `IsPrimitive for Value`. -/
def Value.is_primitive : Value → Bool
  | .arr _ => false
  | .obj _ => false
  | _ => true

/-- Model of `Format for Vec<Value>` (`Vec::format`): a list of primitives
prints one labelled line per element through `Wrapper`; a list containing a
container prints a header and bang-delimited blocks. -/
def fmtVec (items : List Value) (ctx : Ctx) : Str :=
  if items.length = 0 then []
  else if items.all Value.is_primitive then
    (items.map (fun item =>
      spaces ctx.indent ++ ((ctx.keywords ctx.key).getD ctx.key) ++ [' '] ++
        wrapperStr item ++ ['\n'])).flatten
  else
    spaces ctx.indent ++ ctx.key ++ ['\n'] ++
      (items.map (fun item =>
        spaces (ctx.indent + ctx.indent_width) ++ ['!'] ++ ['\n'] ++
          spaces (ctx.indent + ctx.indent_width) ++ wrapperStr item ++ ['\n'])).flatten ++
      spaces (ctx.indent + ctx.indent_width) ++ ['!'] ++ ['\n']

/-- Model of `Format for Map<String, Value>` (`Map::format`), fuel-indexed
for the nested-object recursion (fuel decreases on every call; any fuel at
least the total size of the value suffices). -/
def fmtMap : Nat → List (Str × Value) → Ctx → Str
  | 0, _, _ => []
  | _+1, [], _ => []
  | fuel+1, (key, v) :: rest, ctx =>
    (match v with
      | .null => spaces ctx.indent ++ key ++ ['\n']
      | .bool b => spaces ctx.indent ++ key ++ [' '] ++ yesnoIndex ctx.yesno b ++ ['\n']
      | .num n => spaces ctx.indent ++ key ++ [' '] ++ numToStr n ++ ['\n']
      | .str s => spaces ctx.indent ++ key ++ [' '] ++ s ++ ['\n']
      | .arr items => fmtVec items { ctx with key := key }
      | .obj m =>
        spaces ctx.indent ++ key ++ ['\n'] ++
          fmtMap fuel m { ctx with indent := ctx.indent + ctx.indent_width, key := [] }) ++
    fmtMap fuel rest ctx

/-- Model of `Format for Value` (`Value::format`). -/
def fmtValue : Nat → Value → Ctx → Str
  | 0, _, _ => []
  | fuel+1, v, ctx =>
    match v with
    | .null => spaces ctx.indent ++ ctx.key ++ ['\n']
    | .arr items =>
      (items.map (fun item =>
        spaces ctx.indent ++ ctx.key ++ [' '] ++ wrapperStr item ++ ['\n'])).flatten
    | .obj m =>
      (if ctx.key ≠ [] then spaces ctx.indent ++ ctx.key ++ ['\n'] else []) ++
        fmtMap fuel m { ctx with indent := ctx.indent + ctx.indent_width }
    | _ => []

/-! ## Order infrastructure for sorted record lists -/

/-- Transitivity of the non-strict path order. -/
theorem lcmp_le_trans {a b c : Str} (h1 : lcmp a b ≠ .gt) (h2 : lcmp b c ≠ .gt) :
    lcmp a c ≠ .gt := by
  cases hab : lcmp a b with
  | gt => exact absurd hab h1
  | eq =>
    rw [lcmp_eq_iff.mp hab]
    exact h2
  | lt =>
    cases hbc : lcmp b c with
    | gt => exact absurd hbc h2
    | eq =>
      rw [← lcmp_eq_iff.mp hbc]
      simp [hab]
    | lt => simp [lcmp_lt_trans hab hbc]

theorem ordNotGt_iff {o : Ordering} : ordNotGt o = true ↔ o ≠ .gt := by
  cases o <;> simp [ordNotGt]

theorem beq_lt_iff {o : Ordering} : (o == Ordering.lt) = true ↔ o = .lt := by
  cases o <;> simp <;> rfl

/-- Strict sortedness by path: the central invariant claimed by the spec. -/
def SortedStrict (l : List (Str × Value)) : Prop :=
  l.Pairwise (fun a b => lcmp a.1 b.1 = .lt)

/-- Non-strict sortedness by path: what the code actually establishes. -/
def SortedLe (l : List (Str × Value)) : Prop :=
  l.Pairwise (fun a b => lcmp a.1 b.1 ≠ .gt)

/-- Index of the first record at or after path `p` in a sorted list. -/
def lowerBound (l : List (Str × Value)) (p : Str) : Nat :=
  l.countP (fun r => lcmp r.1 p == .lt)

theorem lowerBound_le_length (l : List (Str × Value)) (p : Str) :
    lowerBound l p ≤ l.length := List.countP_le_length _

theorem sorted_getD_lt {l : List (Str × Value)} (hs : SortedStrict l) {i j : Nat}
    (hij : i < j) (hj : j < l.length) :
    lcmp (l.getD i default).1 (l.getD j default).1 = .lt := by
  have hi : i < l.length := lt_trans hij hj
  rw [List.getD_eq_getElem l default hi, List.getD_eq_getElem l default hj]
  have := List.pairwise_iff_get.mp hs ⟨i, hi⟩ ⟨j, hj⟩ hij
  simpa using this

theorem lowerBound_iff {l : List (Str × Value)} (hs : SortedStrict l) (p : Str) :
    ∀ i, i < l.length →
      (lcmp (l.getD i default).1 p = .lt ↔ i < lowerBound l p) := by
  intro i hi
  have hdc : ∀ i' j', i' < l.length → j' < l.length → i' ≤ j' →
      (fun r => lcmp r.1 p == .lt) (l.getD j' default) = true →
      (fun r => lcmp r.1 p == .lt) (l.getD i' default) = true := by
    intro i' j' hi' hj' hle hp
    simp only [beq_lt_iff] at hp ⊢
    rcases Nat.lt_or_ge i' j' with h | h
    · exact lcmp_lt_trans (sorted_getD_lt hs h hj') hp
    · have : i' = j' := le_antisymm hle h
      rw [this]
      exact hp
  have := boundary_count (fun r => lcmp r.1 p == .lt) l hdc i hi
  simpa only [beq_lt_iff, lowerBound] using this

/-- Behaviour of the first binary search of `CLI::filter_records` and
`CLI::change_directory` on a strictly sorted list: it lands on the lower
bound of the probed path, whether or not an exact match exists. -/
theorem binary_search_lowerBound {l : List (Str × Value)} (hs : SortedStrict l) (p : Str) :
    binary_search_by l (fun r => lcmp r.1 p) = .error (lowerBound l p) ∨
      binary_search_by l (fun r => lcmp r.1 p) = .ok (lowerBound l p) := by
  have hlt : ∀ i, i < l.length → i < lowerBound l p →
      lcmp (l.getD i default).1 p = .lt := by
    intro i hi hib
    exact (lowerBound_iff hs p i hi).mpr hib
  have hge : ∀ i, i < l.length → lowerBound l p ≤ i →
      lcmp (l.getD i default).1 p ≠ .lt := by
    intro i hi hbi hc
    exact absurd ((lowerBound_iff hs p i hi).mp hc) (by omega)
  have heq : ∀ i, i < l.length → lcmp (l.getD i default).1 p = .eq →
      i = lowerBound l p := by
    intro i hi he
    have hnlt : ¬ i < lowerBound l p := by
      intro hc
      rw [(lowerBound_iff hs p i hi).mpr hc] at he
      exact absurd he (by simp)
    rcases Nat.lt_or_ge (lowerBound l p) i with h | h
    · exfalso
      have hb : lowerBound l p < l.length := lt_trans h hi
      have hlow := sorted_getD_lt hs h hi
      rw [lcmp_eq_iff.mp he] at hlow
      exact absurd ((lowerBound_iff hs p _ hb).mp hlow) (by omega)
    · omega
  rcases @binary_search_by_boundary _ _ (fun r => lcmp r.1 p) l (lowerBound l p)
      hlt hge heq (lowerBound_le_length l p) with h | h
  · exact Or.inl h
  · exact Or.inr h

theorem unwrapIdx_binary_search_lowerBound {l : List (Str × Value)}
    (hs : SortedStrict l) (p : Str) :
    unwrapIdx (binary_search_by l (fun r => lcmp r.1 p)) = lowerBound l p := by
  rcases binary_search_lowerBound hs p with h | h <;> rw [h] <;> rfl

theorem getD_drop_eq (l : List (Str × Value)) (n i : Nat) :
    (l.drop n).getD i default = l.getD (n + i) default := by
  simp [List.getD_eq_getElem?_getD, List.getElem?_drop]

/-- Records starting with `p` form a downward-closed block of the records at
or after the lower bound of `p`. -/
theorem pfx_boundary {l : List (Str × Value)} (hs : SortedStrict l) (p : Str) :
    ∀ j, j < (l.drop (lowerBound l p)).length →
      (isPfx p ((l.drop (lowerBound l p)).getD j default).1 = true ↔
        j < (l.drop (lowerBound l p)).countP (fun r => isPfx p r.1)) := by
  have hts : SortedStrict (l.drop (lowerBound l p)) := List.Pairwise.drop hs
  have hlen : (l.drop (lowerBound l p)).length = l.length - lowerBound l p := by
    simp
  have hge : ∀ j, j < (l.drop (lowerBound l p)).length →
      lcmp ((l.drop (lowerBound l p)).getD j default).1 p ≠ .lt := by
    intro j hj hc
    rw [getD_drop_eq] at hc
    have hjl : lowerBound l p + j < l.length := by omega
    have := (lowerBound_iff hs p _ hjl).mp hc
    omega
  have hdc : ∀ i j, i < (l.drop (lowerBound l p)).length →
      j < (l.drop (lowerBound l p)).length → i ≤ j →
      (fun r => isPfx p r.1) ((l.drop (lowerBound l p)).getD j default) = true →
      (fun r => isPfx p r.1) ((l.drop (lowerBound l p)).getD i default) = true := by
    intro i j hi hj hij hp
    simp only [isPfx] at hp ⊢
    rcases Nat.lt_or_ge i j with h | h
    · rw [List.isPrefixOf_iff_prefix] at hp ⊢
      refine pfx_of_between hp ?_ ?_
      · intro hc
        exact hge i hi (lcmp_gt_iff.mp hc)
      · intro hc
        have hlt := sorted_getD_lt hts h hj
        rw [hlt] at hc
        simp at hc
    · have heq : i = j := le_antisymm hij h
      rw [heq]
      exact hp
  exact boundary_count (fun r => isPfx p r.1) (l.drop (lowerBound l p)) hdc

/-- Behaviour of the second binary search of `CLI::filter_records`: over the
suffix starting at the lower bound, the prefix-test comparator never answers
`Equal` and the search reports the size of the prefix block. -/
theorem binary_search_end {l : List (Str × Value)} (hs : SortedStrict l) (p : Str) :
    binary_search_by (l.drop (lowerBound l p))
        (fun r => match isPfx p r.1 with
          | true => .lt
          | false => lcmp r.1 p) =
      .error ((l.drop (lowerBound l p)).countP (fun r => isPfx p r.1)) := by
  have hgeP : ∀ j, j < (l.drop (lowerBound l p)).length →
      lcmp ((l.drop (lowerBound l p)).getD j default).1 p ≠ .lt := by
    intro j hj hc
    rw [getD_drop_eq] at hc
    have hjl : lowerBound l p + j < l.length := by
      have := hj; simp at this; omega
    have := (lowerBound_iff hs p _ hjl).mp hc
    omega
  apply binary_search_by_err
  · intro i hi hib
    have hx := (pfx_boundary hs p i hi).mpr hib
    simp only [hx]
  · intro i hi hbi hc
    have hnp : isPfx p ((l.drop (lowerBound l p)).getD i default).1 = false := by
      cases hx : isPfx p ((l.drop (lowerBound l p)).getD i default).1 with
      | false => rfl
      | true => exact absurd ((pfx_boundary hs p i hi).mp hx) (by omega)
    simp only [hnp] at hc
    exact hgeP i hi hc
  · intro i hi hc
    cases hx : isPfx p ((l.drop (lowerBound l p)).getD i default).1 with
    | true =>
      simp only [hx] at hc
      simp at hc
    | false =>
      simp only [hx] at hc
      rw [lcmp_eq_iff.mp hc] at hx
      rw [show isPfx p p = true from
        List.isPrefixOf_iff_prefix.mpr (List.prefix_refl p)] at hx
      simp at hx
  · exact List.countP_le_length _

theorem mem_take_imp {l : List (Str × Value)} {n : Nat} {x : Str × Value}
    (hx : x ∈ l.take n) :
    ∃ i, i < n ∧ i < l.length ∧ l.getD i default = x := by
  obtain ⟨i, hi, hix⟩ := List.getElem_of_mem hx
  have hlen : i < n ∧ i < l.length := by
    have h2 := hi
    simp [List.length_take] at h2
    omega
  refine ⟨i, hlen.1, hlen.2, ?_⟩
  rw [List.getD_eq_getElem _ _ hlen.2, ← hix]
  exact (List.getElem_take l).symm

theorem mem_list_imp {l : List (Str × Value)} {x : Str × Value} (hx : x ∈ l) :
    ∃ i, i < l.length ∧ l.getD i default = x := by
  obtain ⟨i, hi, hix⟩ := List.getElem_of_mem hx
  exact ⟨i, hi, by rw [List.getD_eq_getElem _ _ hi, hix]⟩

/-- Characterization of `CLI::filter_records` on a strictly sorted record
list whose paths all start with '/': the result is exactly the sub-list of
records whose path starts with the cursor. -/
theorem filter_records_eq (s : CLIState) (hs : SortedStrict s.records)
    (hsl : ∀ r ∈ s.records, isPfx (toStr "/") r.1 = true) :
    CLI.filter_records s = s.records.filter (fun r => isPfx s.current_path r.1) := by
  by_cases hroot : s.current_path = toStr "/"
  · rw [CLI.filter_records, if_pos hroot, hroot]
    exact (List.filter_eq_self.mpr (by intro a ha; simpa using hsl a ha)).symm
  · rw [CLI.filter_records, if_neg hroot]
    rw [unwrapIdx_binary_search_lowerBound hs, binary_search_end hs]
    show (s.records.drop (lowerBound s.records s.current_path)).take
        ((s.records.drop (lowerBound s.records s.current_path)).countP
          (fun r => isPfx s.current_path r.1)) = _
    have hfront : (s.records.take (lowerBound s.records s.current_path)).filter
        (fun r => isPfx s.current_path r.1) = [] := by
      rw [List.filter_eq_nil_iff]
      intro x hx
      obtain ⟨i, hin, hil, hieq⟩ := mem_take_imp hx
      have hlt := (lowerBound_iff hs s.current_path i hil).mpr hin
      rw [hieq] at hlt
      intro hpfx
      have := lcmp_of_pfx (List.isPrefixOf_iff_prefix.mp hpfx)
      exact this (lcmp_gt_iff.mpr hlt)
    have hmid : ((s.records.drop (lowerBound s.records s.current_path)).take
          ((s.records.drop (lowerBound s.records s.current_path)).countP
            (fun r => isPfx s.current_path r.1))).filter
        (fun r => isPfx s.current_path r.1) =
        (s.records.drop (lowerBound s.records s.current_path)).take
          ((s.records.drop (lowerBound s.records s.current_path)).countP
            (fun r => isPfx s.current_path r.1)) := by
      rw [List.filter_eq_self]
      intro x hx
      obtain ⟨i, hin, hil, hieq⟩ := mem_take_imp hx
      have hpb := (pfx_boundary hs s.current_path i hil).mpr hin
      rw [hieq] at hpb
      exact hpb
    have hlast : ((s.records.drop (lowerBound s.records s.current_path)).drop
          ((s.records.drop (lowerBound s.records s.current_path)).countP
            (fun r => isPfx s.current_path r.1))).filter
        (fun r => isPfx s.current_path r.1) = [] := by
      rw [List.filter_eq_nil_iff]
      intro x hx
      obtain ⟨i, hil, hieq⟩ := mem_list_imp hx
      rw [getD_drop_eq] at hieq
      have hilen : (s.records.drop (lowerBound s.records s.current_path)).countP
            (fun r => isPfx s.current_path r.1) + i <
          (s.records.drop (lowerBound s.records s.current_path)).length := by
        have := hil; simp at this ⊢; omega
      intro hpfx
      have := (pfx_boundary hs s.current_path _ hilen).mp (by rw [hieq]; exact hpfx)
      omega
    conv_rhs =>
      rw [← List.take_append_drop (lowerBound s.records s.current_path) s.records,
        List.filter_append, hfront,
        ← List.take_append_drop
          ((s.records.drop (lowerBound s.records s.current_path)).countP
            (fun r => isPfx s.current_path r.1))
          (s.records.drop (lowerBound s.records s.current_path)),
        List.filter_append, hmid, hlast]
    simp

/-! ## Sortedness of the resolver output -/

theorem recLe_total (a b : Str × Value) : recLe a b = true ∨ recLe b a = true := by
  rw [recLe, recLe, ordNotGt_iff, ordNotGt_iff]
  cases h : lcmp a.1 b.1 with
  | lt => left; simp
  | eq => left; simp
  | gt =>
    right
    rw [lcmp_gt_iff] at h
    simp [h]

theorem recLe_trans {a b c : Str × Value} (h1 : recLe a b = true) (h2 : recLe b c = true) :
    recLe a c = true := by
  rw [recLe, ordNotGt_iff] at h1 h2 ⊢
  exact lcmp_le_trans h1 h2

theorem mem_sortInsert {x y : Str × Value} {l : List (Str × Value)} :
    y ∈ sortInsert x l ↔ y = x ∨ y ∈ l := by
  induction l with
  | nil => simp [sortInsert]
  | cons z zs ih =>
    rw [sortInsert]
    split
    · simp only [List.mem_cons, ih]
      tauto
    · simp only [List.mem_cons]

theorem pairwise_sortInsert {x : Str × Value} {l : List (Str × Value)}
    (h : l.Pairwise (fun a b => recLe a b = true)) :
    (sortInsert x l).Pairwise (fun a b => recLe a b = true) := by
  induction l with
  | nil => simp [sortInsert]
  | cons z zs ih =>
    rw [List.pairwise_cons] at h
    rw [sortInsert]
    split
    · rename_i hzx
      rw [List.pairwise_cons]
      constructor
      · intro y hy
        rcases mem_sortInsert.mp hy with h1 | h1
        · rw [h1]; exact hzx
        · exact h.1 y h1
      · exact ih h.2
    · rename_i hzx
      rw [List.pairwise_cons]
      constructor
      · intro y hy
        have hxz : recLe x z = true := by
          rcases recLe_total x z with h1 | h1
          · exact h1
          · exact absurd h1 hzx
        rcases List.mem_cons.mp hy with h1 | h1
        · rw [h1]; exact hxz
        · exact recLe_trans hxz (h.1 y h1)
      · exact List.pairwise_cons.mpr h

theorem sortByPath_pairwise (l : List (Str × Value)) :
    (sortByPath l).Pairwise (fun a b => recLe a b = true) := by
  rw [sortByPath]
  have hgen : ∀ (l : List (Str × Value)) (acc : List (Str × Value)),
      acc.Pairwise (fun a b => recLe a b = true) →
      (l.foldl (fun acc x => sortInsert x acc) acc).Pairwise (fun a b => recLe a b = true) := by
    intro l
    induction l with
    | nil => intro acc hacc; simpa using hacc
    | cons x xs ih =>
      intro acc hacc
      exact ih _ (pairwise_sortInsert hacc)
  exact hgen l [] (by simp)

theorem sortByPath_sortedLe (l : List (Str × Value)) : SortedLe (sortByPath l) := by
  have := sortByPath_pairwise l
  rw [SortedLe]
  exact this.imp (by
    intro a b hab
    rw [recLe, ordNotGt_iff] at hab
    exact hab)

/-- Every successful resolve pass returns a record list sorted in
non-decreasing byte order of path. -/
theorem query_sortedLe {fetch : Fetch} {apis : List API} {filter : Str} {fuel : Nat}
    {more : Bool} {root : Str} {recs : List (Str × Value)}
    (h : Querier.query fetch apis filter fuel = .ok (more, root, recs)) :
    SortedLe recs := by
  rw [Querier.query] at h
  cases hq : query_apis fetch filter fuel apis (toStr "/") ⟨[], false, none, 0⟩ with
  | error e => rw [hq] at h; simp at h
  | ok st =>
    rw [hq] at h
    simp only [Except.ok.injEq, Prod.mk.injEq] at h
    rw [← h.2.2]
    exact sortByPath_sortedLe st.results

/-! ## Further binary-search helpers for `change_directory` -/

/-- When an `Equal` element sits inside the window, the Rust binary search
must find it: the window always contains the boundary index and only closes
by probing it. -/
theorem bsGo_eq {α : Type} [Inhabited α] {f : α → Ordering} {xs : List α} {b : Nat}
    (hlt : ∀ i, i < xs.length → i < b → f (xs.getD i default) = .lt)
    (hge : ∀ i, i < xs.length → b ≤ i → f (xs.getD i default) ≠ .lt)
    (heq : ∀ i, i < xs.length → f (xs.getD i default) = .eq → i = b)
    (hbeq : f (xs.getD b default) = .eq) :
    ∀ fuel left right, right - left < fuel → left ≤ b → b < right → right ≤ xs.length →
      bsGo f xs fuel left right = .ok b := by
  intro fuel
  induction fuel with
  | zero => intro left right h _ _ _; omega
  | succ n ih =>
    intro left right hfuel hlb hbr hr
    rw [bsGo]
    rw [if_pos (by omega)]
    have hmid : left + (right - left) / 2 < right := by omega
    have hmidlen : left + (right - left) / 2 < xs.length := lt_of_lt_of_le hmid hr
    cases hf : f (xs.getD (left + (right - left) / 2) default) with
    | lt =>
      have hmb : left + (right - left) / 2 < b := by
        by_contra hc
        exact hge _ hmidlen (by omega) hf
      exact ih _ _ (by omega) (by omega) hbr hr
    | gt =>
      have hbm : b < left + (right - left) / 2 := by
        rcases Nat.lt_trichotomy b (left + (right - left) / 2) with h | h | h
        · exact h
        · rw [← h] at hf
          rw [hbeq] at hf
          simp at hf
        · rw [hlt _ hmidlen h] at hf
          simp at hf
      exact ih _ _ (by omega) hlb hbm (le_trans (le_of_lt hmid) hr)
    | eq =>
      rw [heq _ hmidlen hf]

/-- An exact path match in a strictly sorted list sits at the lower bound. -/
theorem exact_at_lowerBound {l : List (Str × Value)} (hs : SortedStrict l) {p : Str}
    {i : Nat} (hi : i < l.length) (he : (l.getD i default).1 = p) :
    i = lowerBound l p := by
  have hne : lcmp (l.getD i default).1 p = .eq := by rw [he, lcmp_self]
  have hnlt : ¬ i < lowerBound l p := by
    intro hc
    have := (lowerBound_iff hs p i hi).mpr hc
    rw [this] at hne
    simp at hne
  rcases Nat.lt_or_ge (lowerBound l p) i with h | h
  · exfalso
    have hb : lowerBound l p < l.length := lt_trans h hi
    have hlow := sorted_getD_lt hs h hi
    rw [he] at hlow
    exact absurd ((lowerBound_iff hs p _ hb).mp hlow) (by omega)
  · omega

/-- On a strictly sorted list holding an exact match for `p`, the binary
search returns `Ok` at the match. -/
theorem binary_search_found {l : List (Str × Value)} (hs : SortedStrict l) {p : Str}
    {i : Nat} (hi : i < l.length) (he : (l.getD i default).1 = p) :
    binary_search_by l (fun r => lcmp r.1 p) = .ok (lowerBound l p) := by
  have hieq := exact_at_lowerBound hs hi he
  have hib : lowerBound l p < l.length := by omega
  have heb : (l.getD (lowerBound l p) default).1 = p := by rw [← hieq]; exact he
  have hlt : ∀ j, j < l.length → j < lowerBound l p →
      lcmp (l.getD j default).1 p = .lt := by
    intro j hj hji
    exact (lowerBound_iff hs p j hj).mpr hji
  have hge : ∀ j, j < l.length → lowerBound l p ≤ j →
      lcmp (l.getD j default).1 p ≠ .lt := by
    intro j hj hij hc
    exact absurd ((lowerBound_iff hs p j hj).mp hc) (by omega)
  have heq : ∀ j, j < l.length → lcmp (l.getD j default).1 p = .eq →
      j = lowerBound l p := by
    intro j hj hc
    exact exact_at_lowerBound hs hj (lcmp_eq_iff.mp hc)
  have hbeq : lcmp (l.getD (lowerBound l p) default).1 p = .eq := by
    rw [heb, lcmp_self]
  exact bsGo_eq hlt hge heq hbeq _ 0 l.length (by omega) (by omega) hib (le_refl _)

/-- When no exact match exists, the binary search reports `Err` at the lower
bound. -/
theorem binary_search_absent {l : List (Str × Value)} (hs : SortedStrict l) {p : Str}
    (hab : ∀ r ∈ l, r.1 ≠ p) :
    binary_search_by l (fun r => lcmp r.1 p) = .error (lowerBound l p) := by
  rcases binary_search_lowerBound hs p with h | h
  · exact h
  · exfalso
    obtain ⟨hk, he⟩ := binary_search_by_ok h
    have hmem : l.getD (lowerBound l p) default ∈ l := by
      rw [List.getD_eq_getElem _ _ hk]
      exact List.getElem_mem _
    exact hab _ hmem (lcmp_eq_iff.mp he)

/-- The cursor after the commit tail of `change_directory` is always the
validated prefix, whether or not the triggered refresh succeeds. -/
theorem cd_commit_cursor (fetch : Fetch) (fuel : Nat) (s : CLIState) (append pfx : Str) :
    (CLI.cd_commit fetch fuel s append pfx).1.current_path = pfx := by
  rw [CLI.cd_commit]
  split
  · rfl
  · split
    · rfl
    · rw [CLI.refresh]
      cases Querier.query fetch s.apis pfx fuel with
      | error e => rfl
      | ok t => rfl

/-! ## Claim fixtures -/

/-- Fetch oracle whose every request fails. -/
def fetchDown : Fetch := fun _ => .error (.transport (toStr "down"))

/-- Session used by the C3 witness. -/
def sC3 : CLIState :=
  ⟨[API.mk (toStr "a") none none none], false, toStr "/", [(toStr "/x", .null)], toStr "/"⟩

/-- Schema with two sibling top-level nodes whose payloads share a key. -/
def apisC1 : List API :=
  [API.mk (toStr "a") none none none, API.mk (toStr "b") none none none]

/-- Fetch oracle for the C1 counterexample: both endpoints return a mapping
with the same single key, producing two records with identical paths. -/
def fetchC1 : Fetch := fun p =>
  if p = toStr "/a" then .ok (.obj [(toStr "x", .null)])
  else if p = toStr "/b" then .ok (.obj [(toStr "x", .null)])
  else .error (.transport (toStr "missing"))

/-- Schema node with a declared child, used by the C6 counterexample. -/
def apiC6 : API := .mk (toStr "a") none none (some [API.mk (toStr "b") none none none])

/-- Fetch oracle returning a scalar (non-mapping) payload. -/
def fetchC6 : Fetch := fun p =>
  if p = toStr "/a" then .ok (.str (toStr "hi"))
  else .error (.transport (toStr "missing"))

/-! ## C3 -/

/-- C3: if any fetch of the resolve pass fails, `CLI::refresh` returns the
error and leaves the whole session — flat record list, cursor, `more` flag
and root prefix — exactly as it was: the assignment of the query result to
the session fields never executes, so partial results accumulated by the
fresh `Querier` are discarded wholesale. -/
theorem C3_refresh_error_rollback (fetch : Fetch) (fuel : Nat) (s : CLIState) (e : Err)
    (h : Querier.query fetch s.apis s.current_path fuel = .error e) :
    CLI.refresh fetch fuel s = (s, some e) := by
  rw [CLI.refresh, h]

/-- Witness for C3 at a concrete session and a failing transport. -/
theorem C3_refresh_error_rollback_witness :
    Querier.query fetchDown sC3.apis sC3.current_path 5 =
      .error (.transport (toStr "down")) ∧
    CLI.refresh fetchDown 5 sC3 = (sC3, some (.transport (toStr "down"))) :=
  ⟨rfl, C3_refresh_error_rollback fetchDown 5 sC3 _ rfl⟩

/-! ## C6 -/

/-- C6 counterexample: a schema node with a declared child whose fetched
payload is a scalar produces zero records — not the single leaf record the
claim asserts.  `Querier::query_apis` matches the extracted value against
`Value::Object` and `continue`s to the next node otherwise, pushing
nothing. -/
theorem C6_counterexample :
    Querier.query fetchC6 [apiC6] (toStr "/") 5 = .ok (false, toStr "/", []) ∧
    ([] : List (Str × Value)).length ≠ 1 := ⟨rfl, by simp⟩

/-- C6 amended: a schema node whose fetched payload, after the extraction
expression, is not a mapping contributes nothing at all: no record for the
node, no recursive expansion, no state change, and the loop moves on to the
next sibling node. -/
theorem C6_non_mapping_skipped (fetch : Fetch) (filter : Str) (fuel : Nat)
    (api : API) (rest : List API) (pfx : Str) (more : Bool) (st : QState) (v : Value)
    (hf : fetch (pfx ++ trimStartChar '/' api.path) = .ok v)
    (hnm : ∀ entries, extractVal api v ≠ Value.obj entries) :
    query_apis_loop fetch filter (fuel + 1) (api :: rest) pfx more st =
      query_apis_loop fetch filter fuel rest pfx more st := by
  cases hv : extractVal api v with
  | obj entries => exact absurd hv (hnm entries)
  | null => simp only [query_apis_loop, hf, hv]
  | bool b => simp only [query_apis_loop, hf, hv]
  | num n => simp only [query_apis_loop, hf, hv]
  | str s => simp only [query_apis_loop, hf, hv]
  | arr items => simp only [query_apis_loop, hf, hv]

/-- Witness for the amended C6 at a concrete scalar payload. -/
theorem C6_non_mapping_skipped_witness :
    fetchC6 ((toStr "/") ++ trimStartChar '/' apiC6.path) = .ok (.str (toStr "hi")) ∧
    query_apis_loop fetchC6 (toStr "/") 4 [apiC6] (toStr "/") false ⟨[], false, none, 0⟩ =
      query_apis_loop fetchC6 (toStr "/") 3 [] (toStr "/") false ⟨[], false, none, 0⟩ :=
  ⟨rfl, C6_non_mapping_skipped fetchC6 (toStr "/") 3 apiC6 [] (toStr "/") false
    ⟨[], false, none, 0⟩ (.str (toStr "hi")) rfl (by intro entries h; cases h)⟩

/-! ## C8 -/

/-- Sorted fixture paths of the compressor claim. -/
def paths6 : List Str :=
  [toStr "/go", toStr "/languages/C%2FC++", toStr "/languages/applications/go",
   toStr "/languages/applications/rust", toStr "/languages/go", toStr "/languages/rust"]

/-- C8: on the six-path fixture, `Prefix::build` emits "/languages" as a
single run governing exactly the half-open range `[1, 6)`, with a single
nested "/applications" sub-run governing `[2, 4)` — precisely the indices of
the records under `/languages/applications` — plus the top-level "/go" run
for index 0. -/
theorem C8_compressor_fixture :
    Prefix.build paths6 =
      [⟨toStr "/go", 0, 1⟩, ⟨toStr "/languages", 1, 6⟩, ⟨toStr "/applications", 2, 4⟩] ∧
    (Prefix.build paths6).filter (fun r => r.text = toStr "/languages") =
      [⟨toStr "/languages", 1, 6⟩] ∧
    (Prefix.build paths6).filter (fun r => r.text = toStr "/applications") =
      [⟨toStr "/applications", 2, 4⟩] ∧
    (List.range paths6.length).filter
        (fun i => isPfx (toStr "/languages/applications") (paths6.getD i [])) =
      [2, 3] :=
  ⟨rfl, rfl, rfl, rfl⟩

/-! ## C10 -/

/-- C10: the renderer's Boolean words are inverted.  The `yesno`
configuration defaults to `["yes", "no"]`, yet `Map::format` indexes it with
`*boolean as usize`, so a `true` entry prints the second word "no" and a
`false` entry prints the first word "yes" — the code contradicts the
obvious intent of its own `yesno` naming and default.  The sequence half of
the claim is accurate: Booleans inside a rendered sequence go through
`Wrapper`, printing literal `true` / `false`. -/
theorem C10_bool_words_inverted :
    Ctx.default.yesno = (toStr "yes", toStr "no") ∧
    fmtMap 2 [(toStr "enabled", .bool true)] Ctx.default = toStr "enabled no\n" ∧
    fmtMap 2 [(toStr "dead", .bool false)] Ctx.default = toStr "dead yes\n" ∧
    fmtVec [.bool true, .bool false] { Ctx.default with key := toStr "flag" } =
      toStr "flag true\nflag false\n" :=
  ⟨rfl, rfl, rfl, rfl⟩

/-! ## C2 -/

/-- Session whose single record path lacks the leading slash. -/
def sC2 : CLIState := ⟨[], false, toStr "/", [(toStr "a", Value.null)], toStr "/"⟩

/-- C2 counterexample: as literally quantified — every sorted record list and
every cursor — the claim fails: with cursor "/" the code returns the whole
list unconditionally, so a (sorted) list holding the path "a" yields a slice
containing a record whose path does not start with the cursor "/". -/
theorem C2_counterexample :
    SortedStrict sC2.records ∧
    CLI.filter_records sC2 = [(toStr "a", Value.null)] ∧
    isPfx sC2.current_path (toStr "a") = false := by
  refine ⟨?_, rfl, rfl⟩
  rw [SortedStrict]
  simp [sC2]

/-- C2 amended: on a strictly sorted record list whose paths all start with
'/' — as every list produced by a resolve pass does — `filter_records`
returns a contiguous sub-slice (a take of a drop) equal to exactly the
records whose path starts with the cursor; this includes the special-cased
cursor "/". -/
theorem C2_filter_records_range (s : CLIState) (hs : SortedStrict s.records)
    (hsl : ∀ r ∈ s.records, isPfx (toStr "/") r.1 = true) :
    CLI.filter_records s = s.records.filter (fun r => isPfx s.current_path r.1) ∧
    ∃ i k, CLI.filter_records s = (s.records.drop i).take k := by
  refine ⟨filter_records_eq s hs hsl, ?_⟩
  by_cases hroot : s.current_path = toStr "/"
  · refine ⟨0, s.records.length, ?_⟩
    rw [CLI.filter_records, if_pos hroot]
    simp
  · refine ⟨lowerBound s.records s.current_path,
      (s.records.drop (lowerBound s.records s.current_path)).countP
        (fun r => isPfx s.current_path r.1), ?_⟩
    rw [CLI.filter_records, if_neg hroot, unwrapIdx_binary_search_lowerBound hs,
      binary_search_end hs]
    rfl

/-- Session used by the C2 witness. -/
def sC2W : CLIState :=
  ⟨[], false, toStr "/",
   [(toStr "/a", .null), (toStr "/a/x", .null), (toStr "/b", .null)], toStr "/a/"⟩

/-- Witness for the amended C2 at a concrete sorted session. -/
theorem C2_filter_records_range_witness :
    SortedStrict sC2W.records ∧
    CLI.filter_records sC2W = sC2W.records.filter (fun r => isPfx sC2W.current_path r.1) ∧
    CLI.filter_records sC2W = [(toStr "/a/x", Value.null)] := by
  refine ⟨?_, (C2_filter_records_range sC2W ?_ ?_).1, rfl⟩
  · rw [SortedStrict]; decide
  · rw [SortedStrict]; decide
  · decide

/-! ## C5 -/

/-- Session used by the C5 counterexample: cursor "/a/", one record "/b". -/
def sC5 : CLIState := ⟨[], false, toStr "/", [(toStr "/b", Value.null)], toStr "/a/"⟩

/-- C5 counterexample: the empty argument (an interactive `cd` with no
argument) resolves to `(truncate, append) = (cursor length, "")`, and
`change_directory` silently returns before any validation.  The candidate
prefix — the cursor "/a/" itself — matches no record exactly and prefixes no
record, yet no "no such path" message is printed (the cursor is unchanged,
as the claim says). -/
theorem C5_counterexample :
    cd_candidate sC5.current_path [] = toStr "/a/" ∧
    (∀ r ∈ sC5.records, r.1 ≠ cd_candidate sC5.current_path []) ∧
    (∀ r ∈ sC5.records, isPfx (cd_candidate_slashed sC5.current_path []) r.1 = false) ∧
    CLI.change_directory fetchDown 5 sC5 [] = (sC5, none) :=
  ⟨rfl, by decide, by decide, rfl⟩

/-- C5 amended: whenever the argument does not resolve to the silent no-op
pair `(cursor length, "")`, a candidate prefix that matches no record exactly
and (with '/' appended if needed) prefixes no record makes `change_directory`
print "no such path" and return with the session unchanged — no exception,
no partial navigation.  The lone exception, forced by the counterexample, is
the silent no-op resolution, which also leaves the cursor unchanged but
reports nothing. -/
theorem C5_invalid_target_reports (fetch : Fetch) (fuel : Nat) (s : CLIState) (arg : Str)
    (hta : ¬ ((resolve_arg s.current_path arg).1 = s.current_path.length ∧
      (resolve_arg s.current_path arg).2 = []))
    (hex : ∀ r ∈ s.records, r.1 ≠ cd_candidate s.current_path arg)
    (hpf : ∀ r ∈ s.records, isPfx (cd_candidate_slashed s.current_path arg) r.1 = false) :
    CLI.change_directory fetch fuel s arg = (s, some .noSuchPath) := by
  rw [CLI.change_directory, if_neg hta]
  cases hbs : binary_search_by s.records
      (fun r => lcmp r.1 (cd_candidate s.current_path arg)) with
  | ok k =>
    exfalso
    obtain ⟨hk, he⟩ := binary_search_by_ok hbs
    have hmem : s.records.getD k default ∈ s.records := by
      rw [List.getD_eq_getElem _ _ hk]
      exact List.getElem_mem _
    exact hex _ hmem (lcmp_eq_iff.mp he)
  | error idx =>
    dsimp only
    rw [if_pos]
    rcases Nat.lt_or_ge idx s.records.length with h | h
    · right
      have hmem : s.records.getD idx default ∈ s.records := by
        rw [List.getD_eq_getElem _ _ h]
        exact List.getElem_mem _
      rw [hpf _ hmem]
      simp
    · left
      omega

/-- Session used by the C5 witness: cursor "/", one record "/b". -/
def sC5W : CLIState := ⟨[], false, toStr "/", [(toStr "/b", Value.null)], toStr "/"⟩

/-- Witness for the amended C5: `cd x` with no record at or under "/x". -/
theorem C5_invalid_target_reports_witness :
    (¬ ((resolve_arg sC5W.current_path (toStr "x")).1 = sC5W.current_path.length ∧
      (resolve_arg sC5W.current_path (toStr "x")).2 = [])) ∧
    CLI.change_directory fetchDown 3 sC5W (toStr "x") = (sC5W, some .noSuchPath) :=
  ⟨by decide, C5_invalid_target_reports fetchDown 3 sC5W (toStr "x")
    (by decide) (by decide) (by decide)⟩

/-! ## C4 -/

theorem lcmp_nil_right (x : Str) : lcmp x [] ≠ .lt := by
  cases x <;> simp [lcmp]

/-- Navigating ".." when the parent truncation empties the cursor: the
candidate becomes "", the binary search lands at index 0, a '/' is appended,
and the cursor becomes "/" provided the list is non-empty with
slash-prefixed paths. -/
theorem cd_dotdot_empty_candidate (fetch : Fetch) (fuel : Nat) (s : CLIState)
    (hra : resolve_arg s.current_path (toStr "..") = (0, []))
    (hlen : s.current_path.length ≠ 0)
    (hs : SortedStrict s.records) (hne : s.records ≠ [])
    (h0 : isPfx (toStr "/") (s.records.getD 0 default).1 = true) :
    (CLI.change_directory fetch fuel s (toStr "..")).1.current_path = toStr "/" := by
  have hcand : cd_candidate s.current_path (toStr "..") = [] := by
    rw [cd_candidate, hra]
    simp
  have hsl : cd_candidate_slashed s.current_path (toStr "..") = toStr "/" := by
    rw [cd_candidate_slashed, hcand]
    rfl
  have hex : ∀ r ∈ s.records, r.1 ≠ [] := by
    intro r hr hre
    obtain ⟨i, hi, hieq⟩ := mem_list_imp hr
    cases Nat.eq_zero_or_pos i with
    | inl h0i =>
      rw [h0i] at hieq
      rw [hieq, hre] at h0
      simp [isPfx, toStr, List.isPrefixOf] at h0
    | inr hpos =>
      have := sorted_getD_lt hs hpos hi
      rw [hieq, hre] at this
      exact lcmp_nil_right _ this
  have hlb : lowerBound s.records [] = 0 := by
    rw [lowerBound, List.countP_eq_zero]
    intro r hr
    simp only [beq_lt_iff]
    exact lcmp_nil_right r.1
  have hbs := binary_search_absent hs hex
  rw [hlb] at hbs
  rw [CLI.change_directory]
  rw [if_neg (by
    intro hc
    rw [hra] at hc
    exact hlen hc.1.symm)]
  rw [hcand, hbs]
  dsimp only
  rw [hsl]
  rw [if_neg (by
    rw [h0]
    simp
    exact hne)]
  exact cd_commit_cursor fetch fuel s _ _

/-- Navigating ".." from "/a/b/" when no record is exactly "/a" but the
record at the insertion point starts with "/a/": the cursor becomes "/a/". -/
theorem cd_dotdot_to_dir (fetch : Fetch) (fuel : Nat) (s : CLIState)
    (hcp : s.current_path = toStr "/a/b/") (hs : SortedStrict s.records)
    (hex : ∀ r ∈ s.records, r.1 ≠ toStr "/a")
    (hlb : lowerBound s.records (toStr "/a") < s.records.length)
    (hpf : isPfx (toStr "/a/")
      (s.records.getD (lowerBound s.records (toStr "/a")) default).1 = true) :
    (CLI.change_directory fetch fuel s (toStr "..")).1.current_path = toStr "/a/" := by
  have hcand : cd_candidate (toStr "/a/b/") (toStr "..") = toStr "/a" := rfl
  have hsl : cd_candidate_slashed (toStr "/a/b/") (toStr "..") = toStr "/a/" := rfl
  have hbs := binary_search_absent hs hex
  rw [CLI.change_directory, hcp]
  rw [if_neg (by decide)]
  rw [hcand, hbs]
  dsimp only
  rw [hsl]
  rw [if_neg (by
    rw [hpf]
    simp
    omega)]
  exact cd_commit_cursor fetch fuel s _ _

/-- Navigating ".." from "/a/b/" when a record is exactly "/a": the binary
search finds it and the cursor becomes "/a" without a trailing slash. -/
theorem cd_dotdot_to_exact (fetch : Fetch) (fuel : Nat) (s : CLIState)
    (hcp : s.current_path = toStr "/a/b/") (hs : SortedStrict s.records)
    {i : Nat} (hi : i < s.records.length)
    (he : (s.records.getD i default).1 = toStr "/a") :
    (CLI.change_directory fetch fuel s (toStr "..")).1.current_path = toStr "/a" := by
  have hcand : cd_candidate (toStr "/a/b/") (toStr "..") = toStr "/a" := rfl
  have hbs := binary_search_found hs hi he
  rw [CLI.change_directory, hcp]
  rw [if_neg (by decide)]
  rw [hcand, hbs]
  exact cd_commit_cursor fetch fuel s _ _

/-- C4 amended: `change_directory("..")` behaves as follows.  From cursor
"/a/b/": if no record path equals "/a" and the record at the insertion point
of "/a" starts with "/a/", the cursor becomes "/a/" (the claim's case); but
if some record path is exactly "/a", the cursor becomes "/a" without the
trailing slash — the deviation forcing the correction.  From cursor "/a/"
the cursor becomes "/", and from "/" it stays "/", both provided the record
list is non-empty with slash-prefixed paths. -/
theorem C4_dotdot_semantics (fetch : Fetch) (fuel : Nat) :
    (∀ s : CLIState, s.current_path = toStr "/a/b/" → SortedStrict s.records →
      (∀ r ∈ s.records, r.1 ≠ toStr "/a") →
      lowerBound s.records (toStr "/a") < s.records.length →
      isPfx (toStr "/a/")
        (s.records.getD (lowerBound s.records (toStr "/a")) default).1 = true →
      (CLI.change_directory fetch fuel s (toStr "..")).1.current_path = toStr "/a/") ∧
    (∀ s : CLIState, s.current_path = toStr "/a/b/" → SortedStrict s.records →
      ∀ i, i < s.records.length → (s.records.getD i default).1 = toStr "/a" →
      (CLI.change_directory fetch fuel s (toStr "..")).1.current_path = toStr "/a") ∧
    (∀ s : CLIState, s.current_path = toStr "/a/" → SortedStrict s.records →
      s.records ≠ [] → isPfx (toStr "/") (s.records.getD 0 default).1 = true →
      (CLI.change_directory fetch fuel s (toStr "..")).1.current_path = toStr "/") ∧
    (∀ s : CLIState, s.current_path = toStr "/" → SortedStrict s.records →
      s.records ≠ [] → isPfx (toStr "/") (s.records.getD 0 default).1 = true →
      (CLI.change_directory fetch fuel s (toStr "..")).1.current_path = toStr "/") := by
  refine ⟨?_, ?_, ?_, ?_⟩
  · intro s hcp hs hex hlb hpf
    exact cd_dotdot_to_dir fetch fuel s hcp hs hex hlb hpf
  · intro s hcp hs i hi he
    exact cd_dotdot_to_exact fetch fuel s hcp hs hi he
  · intro s hcp hs hne h0
    exact cd_dotdot_empty_candidate fetch fuel s (by rw [hcp]; rfl) (by rw [hcp]; decide)
      hs hne h0
  · intro s hcp hs hne h0
    exact cd_dotdot_empty_candidate fetch fuel s (by rw [hcp]; rfl) (by rw [hcp]; decide)
      hs hne h0

/-- Session used by the C4 counterexample and witness. -/
def sC4 : CLIState :=
  ⟨[], false, toStr "/", [(toStr "/a", Value.null), (toStr "/a/b/c", Value.null)],
   toStr "/a/b/"⟩

/-- C4 counterexample: a session whose records are sorted, contain entries
under "/a/b" and also contain "/a" as an exact record path.  From cursor
"/a/b/", `cd ..` yields cursor "/a", not the claimed "/a/". -/
theorem C4_counterexample :
    sC4.current_path = toStr "/a/b/" ∧
    SortedStrict sC4.records ∧
    (CLI.change_directory fetchDown 5 sC4 (toStr "..")).1.current_path = toStr "/a" ∧
    (CLI.change_directory fetchDown 5 sC4 (toStr "..")).1.current_path ≠ toStr "/a/" := by
  refine ⟨rfl, ?_, rfl, by decide⟩
  rw [SortedStrict]
  decide

/-- Session used by the C4 witness: no exact "/a" record. -/
def sC4W : CLIState :=
  ⟨[], false, toStr "/", [(toStr "/a/b/c", Value.null)], toStr "/a/b/"⟩

/-- Witness for the amended C4: its first and last cases at concrete
sessions. -/
theorem C4_dotdot_semantics_witness :
    (CLI.change_directory fetchDown 3 sC4W (toStr "..")).1.current_path = toStr "/a/" ∧
    (CLI.change_directory fetchDown 3
      ⟨[], false, toStr "/", [(toStr "/b", Value.null)], toStr "/"⟩
      (toStr "..")).1.current_path = toStr "/" :=
  ⟨(C4_dotdot_semantics fetchDown 3).1 sC4W rfl (by rw [SortedStrict]; decide)
      (by decide) (by decide) (by decide),
   (C4_dotdot_semantics fetchDown 3).2.2.2
      ⟨[], false, toStr "/", [(toStr "/b", Value.null)], toStr "/"⟩ rfl
      (by rw [SortedStrict]; decide) (by simp) (by decide)⟩

/-! ## C1 -/

/-- Record lists survive the commit tail of `change_directory` sorted: they
are either untouched or replaced wholesale by a freshly sorted resolve
pass. -/
theorem cd_commit_sortedLe (fetch : Fetch) (fuel : Nat) (s : CLIState)
    (append pfx : Str) (h : SortedLe s.records) :
    SortedLe (CLI.cd_commit fetch fuel s append pfx).1.records := by
  rw [CLI.cd_commit]
  split
  · exact h
  · split
    · exact h
    · rw [CLI.refresh]
      cases hq : Querier.query fetch s.apis pfx fuel with
      | error e => exact h
      | ok t =>
        obtain ⟨m, r, recs⟩ := t
        exact query_sortedLe hq

/-- C1 amended: every successful resolve pass (initial construction and every
refresh both go through `Querier::query`) returns a record list sorted in
non-decreasing byte order of path — duplicates are possible, since the code
sorts but never deduplicates, so the order need not be strict; and
`change_directory` preserves sortedness of the session's list: it either
leaves the list untouched or replaces it wholesale with the freshly sorted
output of a resolve pass (`filter_records` takes the session immutably and
cannot modify it). -/
theorem C1_sortedness (fetch : Fetch) (fuel : Nat) :
    (∀ apis filter more root recs,
      Querier.query fetch apis filter fuel = .ok (more, root, recs) → SortedLe recs) ∧
    (∀ (s : CLIState) (arg : Str), SortedLe s.records →
      SortedLe (CLI.change_directory fetch fuel s arg).1.records) := by
  constructor
  · intro apis filter more root recs h
    exact query_sortedLe h
  · intro s arg hsle
    rw [CLI.change_directory]
    split
    · exact hsle
    · split
      · exact cd_commit_sortedLe fetch fuel s _ _ hsle
      · split
        · exact hsle
        · exact cd_commit_sortedLe fetch fuel s _ _ hsle

/-- C1 counterexample: two sibling schema nodes whose payloads share the key
"x" produce two records with the identical path "/x"; the sorted output is
therefore not strictly ascending and contains a duplicated path, refuting
the claimed strictness. -/
theorem C1_counterexample :
    Querier.query fetchC1 apisC1 (toStr "/") 5 =
      .ok (false, toStr "/", [(toStr "/x", Value.null), (toStr "/x", Value.null)]) ∧
    ¬ SortedStrict [(toStr "/x", Value.null), (toStr "/x", Value.null)] := by
  refine ⟨rfl, ?_⟩
  intro h
  rw [SortedStrict, List.pairwise_cons] at h
  have hd := h.1 (toStr "/x", Value.null) (by simp)
  rw [lcmp_self] at hd
  exact absurd hd (by simp)

/-- Session used by the C1 witness. -/
def sC1W : CLIState := ⟨[], false, toStr "/", [(toStr "/b", Value.null)], toStr "/"⟩

/-- Witness for the amended C1 at concrete runs. -/
theorem C1_sortedness_witness :
    Querier.query fetchC1 apisC1 (toStr "/") 5 =
      .ok (false, toStr "/", [(toStr "/x", Value.null), (toStr "/x", Value.null)]) ∧
    SortedLe [(toStr "/x", Value.null), (toStr "/x", Value.null)] ∧
    SortedLe (CLI.change_directory fetchDown 3 sC1W (toStr "x")).1.records :=
  ⟨rfl, (C1_sortedness fetchC1 5).1 apisC1 (toStr "/") false (toStr "/") _ rfl,
   (C1_sortedness fetchDown 3).2 sC1W (toStr "x") (by rw [SortedLe]; decide)⟩

/-! ## C7 -/

/-- State invariants of the resolver.  Once `root` is set it, and the `more`
field, never change; `skips` only grows; a call that leaves `root` unset
performed no recursive expansion, so its local `more` flag can only have been
raised together with a ghost skip; and the call that sets `root` writes
`more = true` only if a lazy-entity skip happened under it. -/
theorem query_state_invariants (fetch : Fetch) (filter : Str) : ∀ fuel : Nat,
    (∀ apis pfx st st', query_apis fetch filter fuel apis pfx st = .ok st' →
      st.skips ≤ st'.skips ∧
      (∀ r, st.root = some r → st'.root = some r ∧ st'.more = st.more) ∧
      (st.root = none → st'.root ≠ none ∧ (st'.more = true → st.skips < st'.skips))) ∧
    (∀ apis pfx more st more' st',
      query_apis_loop fetch filter fuel apis pfx more st = .ok (more', st') →
      st.skips ≤ st'.skips ∧
      (∀ r, st.root = some r → st'.root = some r ∧ st'.more = st.more) ∧
      (st'.root = none → st.root = none ∧
        (more' = true → more = true ∨ st.skips < st'.skips)) ∧
      (st.root = none → st'.root ≠ none → st'.more = true → st.skips < st'.skips)) ∧
    (∀ api pfx entries more st more' st',
      query_entries fetch filter fuel api pfx entries more st = .ok (more', st') →
      st.skips ≤ st'.skips ∧
      (∀ r, st.root = some r → st'.root = some r ∧ st'.more = st.more) ∧
      (st'.root = none → st.root = none ∧
        (more' = true → more = true ∨ st.skips < st'.skips)) ∧
      (st.root = none → st'.root ≠ none → st'.more = true → st.skips < st'.skips)) := by
  intro fuel
  induction fuel with
  | zero =>
    refine ⟨?_, ?_, ?_⟩
    · intro apis pfx st st' h
      rw [query_apis] at h
      simp at h
    · intro apis pfx more st more' st' h
      rw [query_apis_loop] at h
      simp at h
    · intro api pfx entries more st more' st' h
      rw [query_entries] at h
      simp at h
  | succ n ih =>
    obtain ⟨ihF, ihL, ihE⟩ := ih
    refine ⟨?_, ?_, ?_⟩
    · -- query_apis
      intro apis pfx st st' h
      rw [query_apis] at h
      cases hl : query_apis_loop fetch filter n apis pfx false st with
      | error e => rw [hl] at h; simp at h
      | ok p =>
        obtain ⟨more1, st1⟩ := p
        rw [hl] at h
        dsimp only at h
        obtain ⟨hL1, hL2, hL3, hL5⟩ := ihL apis pfx false st more1 st1 hl
        split at h
        · rename_i hnone
          rw [Option.isNone_iff_eq_none] at hnone
          simp only [Except.ok.injEq] at h
          subst h
          refine ⟨hL1, ?_, ?_⟩
          · intro r hsr
            exact absurd (hL2 r hsr).1 (by rw [hnone]; simp)
          · intro hsn
            refine ⟨by simp, ?_⟩
            intro hm
            dsimp only at hm
            rcases (hL3 hnone).2 hm with h1 | h1
            · simp at h1
            · exact h1
        · rename_i hnone
          rw [Option.isNone_iff_eq_none] at hnone
          simp only [Except.ok.injEq] at h
          subst h
          refine ⟨hL1, hL2, ?_⟩
          intro hsn
          refine ⟨hnone, ?_⟩
          intro hm
          exact hL5 hsn hnone hm
    · -- query_apis_loop
      intro apis pfx more st more' st' h
      cases apis with
      | nil =>
        rw [query_apis_loop] at h
        simp only [Except.ok.injEq, Prod.mk.injEq] at h
        obtain ⟨h1, h2⟩ := h
        subst h1
        subst h2
        refine ⟨le_refl _, fun r hr => ⟨hr, rfl⟩, fun hn => ⟨hn, fun hm => Or.inl hm⟩,
          fun hn hnn _ => absurd hn (by intro hc; rw [hc] at hnn; exact hnn rfl)⟩
      | cons api rest =>
        rw [query_apis_loop] at h
        cases hf : fetch (pfx ++ trimStartChar '/' api.path) with
        | error e => rw [hf] at h; simp at h
        | ok v =>
          rw [hf] at h
          dsimp only at h
          cases hv : extractVal api v with
          | obj entries =>
            rw [hv] at h
            dsimp only at h
            cases hqe : query_entries fetch filter n api pfx entries more st with
            | error e => rw [hqe] at h; simp at h
            | ok q =>
              obtain ⟨moreE, stE⟩ := q
              rw [hqe] at h
              dsimp only at h
              obtain ⟨hE1, hE2, hE3, hE5⟩ := ihE api pfx entries more st moreE stE hqe
              obtain ⟨hR1, hR2, hR3, hR5⟩ := ihL rest pfx moreE stE more' st' h
              refine ⟨le_trans hE1 hR1, ?_, ?_, ?_⟩
              · intro r hsr
                obtain ⟨e1, e2⟩ := hE2 r hsr
                obtain ⟨r1, r2⟩ := hR2 r e1
                exact ⟨r1, by rw [r2, e2]⟩
              · intro hnone
                obtain ⟨rE, rdisj⟩ := hR3 hnone
                obtain ⟨sE, sdisj⟩ := hE3 rE
                refine ⟨sE, ?_⟩
                intro hm
                rcases rdisj hm with h1 | h1
                · rcases sdisj h1 with h2 | h2
                  · exact Or.inl h2
                  · exact Or.inr (lt_of_lt_of_le h2 hR1)
                · exact Or.inr (lt_of_le_of_lt hE1 h1)
              · intro hnone hne hm
                cases hre : stE.root with
                | some r0 =>
                  have hmore := (hR2 r0 hre).2
                  rw [hm] at hmore
                  have hlt := hE5 hnone (by rw [hre]; simp) hmore.symm
                  exact lt_of_lt_of_le hlt hR1
                | none =>
                  have hlt := hR5 hre hne hm
                  exact lt_of_le_of_lt hE1 hlt
          | null =>
            rw [hv] at h
            exact ihL rest pfx more st more' st' h
          | bool b =>
            rw [hv] at h
            exact ihL rest pfx more st more' st' h
          | num m =>
            rw [hv] at h
            exact ihL rest pfx more st more' st' h
          | str s2 =>
            rw [hv] at h
            exact ihL rest pfx more st more' st' h
          | arr items =>
            rw [hv] at h
            exact ihL rest pfx more st more' st' h
    · -- query_entries
      intro api pfx entries more st more' st' h
      cases entries with
      | nil =>
        rw [query_entries] at h
        simp only [Except.ok.injEq, Prod.mk.injEq] at h
        obtain ⟨h1, h2⟩ := h
        subst h1
        subst h2
        refine ⟨le_refl _, fun r hr => ⟨hr, rfl⟩, fun hn => ⟨hn, fun hm => Or.inl hm⟩,
          fun hn hnn _ => absurd hn (by intro hc; rw [hc] at hnn; exact hnn rfl)⟩
      | cons kv tail =>
        obtain ⟨key, value⟩ := kv
        rw [query_entries] at h
        dsimp only at h
        split at h
        · -- no declared children: plain push, recurse on the tail
          have hT := ihE api pfx tail more
            { st with results := st.results ++ [(pfx ++ trimChar '/' key, value)] }
            more' st' h
          dsimp only at hT
          exact hT
        · split at h
          · -- recursive expansion through the full query_apis
            cases hqa : query_apis fetch filter n (api.apis.getD [])
                (pfx ++ trimChar '/' key ++ ['/'])
                { st with results := st.results ++ [(pfx ++ trimChar '/' key, value)] } with
            | error e => rw [hqa] at h; simp at h
            | ok st2 =>
              rw [hqa] at h
              dsimp only at h
              obtain ⟨hF1, hF2, hF4⟩ := ihF (api.apis.getD [])
                (pfx ++ trimChar '/' key ++ ['/'])
                { st with results := st.results ++ [(pfx ++ trimChar '/' key, value)] }
                st2 hqa
              dsimp only at hF1 hF2 hF4
              obtain ⟨hT1, hT2, hT3, hT5⟩ := ihE api pfx tail true st2 more' st' h
              refine ⟨le_trans hF1 hT1, ?_, ?_, ?_⟩
              · intro r hsr
                obtain ⟨f1, f2⟩ := hF2 r hsr
                obtain ⟨t1, t2⟩ := hT2 r f1
                exact ⟨t1, by rw [t2, f2]⟩
              · intro hnone
                exfalso
                obtain ⟨h2n, _⟩ := hT3 hnone
                cases hsr : st.root with
                | none => exact (hF4 hsr).1 h2n
                | some r0 => rw [(hF2 r0 hsr).1] at h2n; simp at h2n
              · intro hnone hne hm
                obtain ⟨h2ne, hmore2⟩ := hF4 hnone
                cases h2r : st2.root with
                | none => exact absurd h2r h2ne
                | some r0 =>
                  have ht2 := (hT2 r0 h2r).2
                  rw [hm] at ht2
                  exact lt_of_lt_of_le (hmore2 ht2.symm) hT1
          · -- lazy-entity skip: ghost counter bumped, recurse on the tail
            have hT := ihE api pfx tail true { st with results := st.results ++ [(pfx ++ trimChar '/' key, value)], skips := st.skips + 1 } more' st' h
            dsimp only at hT
            obtain ⟨hT1, hT2, hT3, hT5⟩ := hT
            refine ⟨by omega, hT2, ?_, ?_⟩
            · intro hnone
              obtain ⟨h1, _⟩ := hT3 hnone
              exact ⟨h1, fun _ => Or.inr (by omega)⟩
            · intro hnone hne hm
              omega

/-- Leaf schema node "b". -/
def apiB : API := .mk (toStr "b") none none none

/-- Non-entity schema node "a" with child [apiB]. -/
def apiA : API := .mk (toStr "a") none none (some [apiB])

/-- Leaf schema node "e". -/
def apiE7 : API := .mk (toStr "e") none none none

/-- Entity-marked schema node "d" with child [apiE7]. -/
def apiD : API := .mk (toStr "d") (some true) none (some [apiE7])

/-- Schema for the C7 counterexample: an expandable branch before a
lazy-entity branch. -/
def apisC7 : List API := [apiA, apiD]

/-- Fetch oracle for the C7 counterexample. -/
def fetchC7 : Fetch := fun p =>
  if p = toStr "/a" then .ok (.obj [(toStr "k", .null)])
  else if p = toStr "/k/b" then .ok (.obj [(toStr "j", .null)])
  else if p = toStr "/d" then .ok (.obj [(toStr "m", .null)])
  else .error (.transport (toStr "missing"))

/-- Resolver state after the C7 counterexample run. -/
def qstC7 : QState :=
  ⟨[(toStr "/k", .null), (toStr "/k/j", .null), (toStr "/m", .null)],
   false, some (toStr "/k/"), 1⟩

/-- C7 counterexample: the lazy-entity rule skips the expansion of "/m"
(ghost skip counter 1), yet the pass returns `more = false`: the `more`/
`root` pair is claimed by the first completed recursive call — here the
fully expanded "/k/" branch — and the later skip in the sibling branch never
reaches the caller.  This refutes the claimed "if and only if". -/
theorem C7_counterexample :
    query_apis fetchC7 (toStr "/") 10 apisC7 (toStr "/") ⟨[], false, none, 0⟩ =
      .ok qstC7 ∧
    qstC7.more = false ∧
    0 < qstC7.skips ∧
    Querier.query fetchC7 apisC7 (toStr "/") 10 =
      .ok (false, toStr "/k/", qstC7.results) :=
  ⟨rfl, rfl, by decide, rfl⟩

/-- C7 amended: one direction of the claim survives: if a resolve pass
started with an unset accumulator returns `more = true`, then at least one
declared child expansion was skipped by the lazy-entity rule during the
pass.  The converse direction fails (see the counterexample): a skip in a
branch other than the first completed non-recursing call leaves `more`
false. -/
theorem C7_more_implies_skip (fetch : Fetch) (filter : Str) (fuel : Nat)
    (apis : List API) (pfx : Str) (st : QState)
    (h : query_apis fetch filter fuel apis pfx ⟨[], false, none, 0⟩ = .ok st)
    (hm : st.more = true) : 0 < st.skips := by
  obtain ⟨h1, h2, h3⟩ :=
    (query_state_invariants fetch filter fuel).1 apis pfx ⟨[], false, none, 0⟩ st h
  exact (h3 rfl).2 hm

/-- Fetch oracle for the C7 witness: a lone lazy-entity node. -/
def fetchC7W : Fetch := fun p =>
  if p = toStr "/d" then .ok (.obj [(toStr "m", .null)])
  else .error (.transport (toStr "missing"))

/-- Witness for the amended C7: a pass that skips its only declared child
returns `more = true`, and the theorem yields a positive skip count. -/
theorem C7_more_implies_skip_witness :
    query_apis fetchC7W (toStr "/") 5 [apiD] (toStr "/") ⟨[], false, none, 0⟩ =
      .ok ⟨[(toStr "/m", .null)], true, some (toStr "/"), 1⟩ ∧
    0 < (QState.mk [(toStr "/m", .null)] true (some (toStr "/")) 1).skips :=
  ⟨rfl, C7_more_implies_skip fetchC7W (toStr "/") 5 [apiD] (toStr "/")
    ⟨[(toStr "/m", .null)], true, some (toStr "/"), 1⟩ rfl rfl⟩

/-! ## C9 -/

theorem splitChar_ne_nil (c : Char) (s : Str) : splitChar c s ≠ [] := by
  cases s with
  | nil => simp [splitChar]
  | cons a rest =>
    rw [splitChar]
    cases h : splitChar c rest with
    | nil => simp
    | cons x xs =>
      split
      · simp
      · split <;> simp

theorem ofStr_levels_pos (raw : Str) : 1 ≤ (PathT.ofStr raw).tokens.length := by
  rw [PathT.ofStr]
  exact List.length_pos.mpr (splitChar_ne_nil _ _)

theorem pop_tokens_length (p : PathT) (n : Nat) :
    ((p.pop n).2).tokens.length ≤ p.tokens.length := by
  rw [PathT.pop]
  split
  · exact le_refl _
  · dsimp only
    rw [List.length_take]
    omega

theorem matchTokens_le_left (a b : List Str) : matchTokens a b ≤ a.length := by
  induction a generalizing b with
  | nil => cases b <;> simp [matchTokens]
  | cons x xs ih =>
    cases b with
    | nil => simp [matchTokens]
    | cons y ys =>
      rw [matchTokens]
      split
      · have := ih ys
        simp
        omega
      · simp

theorem incFirst_length (n : Nat) (l : List Nat) : (incFirst n l).length = l.length := by
  induction l generalizing n with
  | nil => cases n <;> rfl
  | cons c cs ih =>
    cases n with
    | zero => rfl
    | succ m =>
      rw [incFirst]
      simp [ih]

theorem incFirst_getD_ge (n : Nat) (l : List Nat) :
    ∀ i, n ≤ i → (incFirst n l).getD i 0 = l.getD i 0 := by
  induction l generalizing n with
  | nil => intro i hi; cases n <;> rfl
  | cons c cs ih =>
    intro i hi
    cases n with
    | zero => rfl
    | succ m =>
      rw [incFirst]
      cases i with
      | zero => omega
      | succ j =>
        rw [List.getD_cons_succ, List.getD_cons_succ]
        exact ih m j (by omega)

theorem incFirst_mem_bound {n k : Nat} {l : List Nat} (h : ∀ c ∈ l, 1 ≤ c ∧ c ≤ k) :
    ∀ c ∈ incFirst n l, 1 ≤ c ∧ c ≤ k + 1 := by
  induction l generalizing n with
  | nil => intro c hc; cases n <;> simp [incFirst] at hc
  | cons x xs ih =>
    intro c hc
    cases n with
    | zero =>
      have := h c hc
      omega
    | succ m =>
      rw [incFirst] at hc
      rcases List.mem_cons.mp hc with h1 | h1
      · have := h x (by simp)
        omega
      · exact ih (fun c2 hc2 => h c2 (by simp [hc2])) c h1

theorem getD_mem_of_lt {l : List Nat} {i : Nat} (h : i < l.length) : l.getD i 0 ∈ l := by
  rw [List.getD_eq_getElem _ _ h]
  exact List.getElem_mem _

/-- Runs pushed by the inner emit loop of `Prefix::build` span at least two
records in reversed index space and end at the current item index. -/
theorem emitLoop_runs (index numMatch : Nat) :
    ∀ (n : Nat) (ref : PathT) (counts : List Nat) (length : Nat) (runs : List PrefixRun),
      (∀ i, numMatch ≤ i → i < numMatch + n →
        1 ≤ counts.getD i 0 ∧ counts.getD i 0 ≤ index) →
      (∀ r ∈ runs, r.start + 2 ≤ r.stop ∧ r.stop ≤ index) →
      ∀ r ∈ (emitLoop index numMatch n ref counts length runs).2,
        r.start + 2 ≤ r.stop ∧ r.stop ≤ index := by
  intro n
  induction n with
  | zero => intro ref counts length runs hc hr r hmem; exact hr r hmem
  | succ m ih =>
    intro ref counts length runs hc hr r hmem
    rw [emitLoop] at hmem
    split at hmem
    · exact ih _ _ _ _ (fun i h1 h2 => hc i h1 (by omega)) hr r hmem
    · split at hmem
      · refine ih _ _ _ _ (fun i h1 h2 => hc i h1 (by omega)) ?_ r hmem
        intro r2 hr2
        rcases List.mem_append.mp hr2 with h1 | h1
        · exact hr r2 h1
        · rw [List.mem_singleton] at h1
          subst h1
          have hcm := hc (numMatch + m) (by omega) (by omega)
          rename_i hne _
          dsimp only
          constructor
          · omega
          · omega
      · split at hmem
        · exact ih _ _ _ _ (fun i h1 h2 => hc i h1 (by omega)) hr r hmem
        · exact ih _ _ _ _ (fun i h1 h2 => hc i h1 (by omega)) hr r hmem

/-- The emit loop only shortens the reference path. -/
theorem emitLoop_ref_length (index numMatch : Nat) :
    ∀ (n : Nat) (ref : PathT) (counts : List Nat) (length : Nat) (runs : List PrefixRun),
      ((emitLoop index numMatch n ref counts length runs).1).tokens.length ≤
        ref.tokens.length := by
  intro n
  induction n with
  | zero => intro ref counts length runs; exact le_refl _
  | succ m ih =>
    intro ref counts length runs
    rw [emitLoop]
    split
    · exact le_trans (ih _ _ _ _) (pop_tokens_length ref 1)
    · split
      · exact le_trans (ih _ _ _ _) (pop_tokens_length ref _)
      · split
        · exact ih _ _ _ _
        · exact le_trans (ih _ _ _ _) (pop_tokens_length ref 1)

/-- Invariant of the main loop state of `Prefix::build` after `k` items have
been consumed from the reversed sequence: the counters align with the
reference path depth, every counter lies in `[1, k]`, the reference path is
non-empty, and every pushed run spans at least two records and ends at an
already-visited reverse index. -/
def BuildInv (k : Nat) (st : BuildSt) : Prop :=
  st.counts.length = st.ref.tokens.length ∧
  1 ≤ st.ref.tokens.length ∧
  (∀ c ∈ st.counts, 1 ≤ c ∧ c ≤ k) ∧
  (∀ r ∈ st.runs, r.start + 2 ≤ r.stop ∧ r.stop ≤ k)

theorem buildStep_inv {k : Nat} {st : BuildSt} (hinv : BuildInv k st) (raw : Str) :
    BuildInv (k + 1) (buildStep st k raw) := by
  obtain ⟨hlen, hpos, hcnt, hruns⟩ := hinv
  have hm := matchTokens_le_left st.ref.tokens (PathT.ofStr raw).tokens
  rw [buildStep]
  dsimp only
  cases hemit : emitLoop k (matchTokens st.ref.tokens (PathT.ofStr raw).tokens)
      (st.ref.tokens.length - matchTokens st.ref.tokens (PathT.ofStr raw).tokens)
      st.ref (incFirst (matchTokens st.ref.tokens (PathT.ofStr raw).tokens) st.counts) 1
      st.runs with
  | mk ref1 runs1 =>
    dsimp only
    have hrl : ref1.tokens.length ≤ st.ref.tokens.length := by
      have := emitLoop_ref_length k (matchTokens st.ref.tokens (PathT.ofStr raw).tokens)
        (st.ref.tokens.length - matchTokens st.ref.tokens (PathT.ofStr raw).tokens)
        st.ref (incFirst (matchTokens st.ref.tokens (PathT.ofStr raw).tokens) st.counts) 1
        st.runs
      rw [hemit] at this
      exact this
    have hruns1 : ∀ r ∈ runs1, r.start + 2 ≤ r.stop ∧ r.stop ≤ k := by
      have := emitLoop_runs k (matchTokens st.ref.tokens (PathT.ofStr raw).tokens)
        (st.ref.tokens.length - matchTokens st.ref.tokens (PathT.ofStr raw).tokens)
        st.ref (incFirst (matchTokens st.ref.tokens (PathT.ofStr raw).tokens) st.counts) 1
        st.runs ?_ hruns
      · rw [hemit] at this
        exact this
      · intro i h1 h2
        rw [incFirst_getD_ge _ _ i h1]
        have hilt : i < st.counts.length := by rw [hlen]; omega
        exact hcnt _ (getD_mem_of_lt hilt)
    have hc2len : ((incFirst (matchTokens st.ref.tokens (PathT.ofStr raw).tokens)
        st.counts).take ref1.tokens.length).length = ref1.tokens.length := by
      rw [List.length_take, incFirst_length, hlen]
      omega
    have hc2mem : ∀ c ∈ (incFirst (matchTokens st.ref.tokens (PathT.ofStr raw).tokens)
        st.counts).take ref1.tokens.length, 1 ≤ c ∧ c ≤ k + 1 := by
      intro c hc
      exact incFirst_mem_bound hcnt c (List.mem_of_mem_take hc)
    split
    · rename_i hdeep
      refine ⟨?_, ?_, ?_, ?_⟩
      · dsimp only
        rw [List.length_append, List.length_replicate, hc2len]
        omega
      · dsimp only
        exact ofStr_levels_pos raw
      · intro c hc
        dsimp only at hc
        rcases List.mem_append.mp hc with h1 | h1
        · exact hc2mem c h1
        · rw [List.eq_of_mem_replicate h1]
          omega
      · intro r hr
        dsimp only at hr
        have := hruns1 r hr
        omega
    · rename_i hdeep
      refine ⟨hc2len, ?_, hc2mem, ?_⟩
      · dsimp only
        have := ofStr_levels_pos raw
        omega
      · intro r hr
        dsimp only at hr
        have := hruns1 r hr
        omega

theorem buildLoop_inv : ∀ (rest : List Str) (k : Nat) (st : BuildSt),
    BuildInv k st → BuildInv (k + rest.length) (buildLoop rest k st) := by
  intro rest
  induction rest with
  | nil =>
    intro k st h
    rw [buildLoop]
    simpa using h
  | cons raw tail ih =>
    intro k st h
    rw [buildLoop]
    have := ih (k + 1) (buildStep st k raw) (buildStep_inv h raw)
    rw [show k + 1 + tail.length = k + (tail.length + 1) from by omega] at this
    simpa using this

/-- The flush loop appends only wide runs, except for its last push — the
depth-0 run, always emitted, which becomes the head of the final output. -/
theorem flushLoop_runs (sum : Nat) :
    ∀ (n : Nat) (ref : PathT) (counts : List Nat) (length : Nat) (runs : List PrefixRun),
      1 ≤ n →
      (∀ i, i < n → counts.getD i 0 ≤ sum) →
      ∃ runs2 r0,
        flushLoop sum n ref counts length runs = runs ++ runs2 ++ [r0] ∧
        (∀ r ∈ runs2, r.start + 2 ≤ r.stop ∧ r.stop ≤ sum) ∧ r0.stop ≤ sum := by
  intro n
  induction n with
  | zero => intro _ _ _ _ h _; omega
  | succ m ih =>
    intro ref counts length runs _ hc
    rw [flushLoop]
    cases Nat.eq_zero_or_pos m with
    | inl h0 =>
      subst h0
      rw [if_pos (Or.inl rfl)]
      rw [flushLoop]
      exact ⟨[], ⟨(ref.pop length).1, sum - counts.getD 0 0, sum⟩, by simp, by simp,
        le_refl sum⟩
    | inr hpos =>
      by_cases hguard : m = 0 ∨ (1 < counts.getD m 0 ∧ counts.getD m 0 < counts.getD (m - 1) 0)
      · rw [if_pos hguard]
        obtain ⟨runs2, r0, heq, hgood, hr0⟩ :=
          ih (ref.pop length).2 counts 1
            (runs ++ [⟨(ref.pop length).1, sum - counts.getD m 0, sum⟩]) (by omega)
            (fun i hi => hc i (by omega))
        refine ⟨⟨(ref.pop length).1, sum - counts.getD m 0, sum⟩ :: runs2, r0, ?_, ?_, hr0⟩
        · rw [heq]
          simp
        · intro r hr
          rcases List.mem_cons.mp hr with h1 | h1
          · subst h1
            dsimp only
            rcases hguard with h2 | h2
            · omega
            · have := hc m (by omega)
              constructor <;> omega
          · exact hgood r h1
      · rw [if_neg hguard]
        split
        · exact ih ref counts (length + 1) runs (by omega) (fun i hi => hc i (by omega))
        · exact ih (ref.pop 1).2 counts length runs (by omega) (fun i hi => hc i (by omega))

/-- C9 amended: on every lexically sorted path sequence within the supported
depth, every prefix run produced by `Prefix::build` spans at least two
records, except possibly the first run of the returned list.  That first run
is the depth-0 run pushed unconditionally by the final flush (its guard is
`i == 0 || ...`), and it spans a single record exactly when the first path
shares no leading segment with its successor. -/
theorem C9_wide_runs_except_head (paths : List Str)
    (hsorted : paths.Pairwise (fun a b => lcmp a b = .lt))
    (hdepth : ∀ p ∈ paths, (splitChar '/' (trimChar '/' p)).length ≤ MAX_LEVEL) :
    ∀ r ∈ (Prefix.build paths).tail, r.start + 2 ≤ r.stop := by
  intro r hmem
  rw [Prefix.build] at hmem
  cases hrev : paths.reverse with
  | nil => rw [hrev] at hmem; simp at hmem
  | cons first rest =>
    rw [hrev] at hmem
    dsimp only at hmem
    have hInv0 : BuildInv 1
        ⟨PathT.ofStr first, List.replicate (PathT.ofStr first).tokens.length 1, []⟩ := by
      refine ⟨by simp, ofStr_levels_pos first, ?_, by simp⟩
      intro c hc
      rw [List.eq_of_mem_replicate hc]
      omega
    obtain ⟨hlen1, hpos1, hcnt1, hruns1⟩ := buildLoop_inv rest 1 _ hInv0
    have hsum : rest.length + 1 = paths.length := by
      have h2 : paths.reverse.length = paths.length := List.length_reverse paths
      rw [hrev] at h2
      simpa using h2
    obtain ⟨runs2, r0, heq, hgood, hr0⟩ :=
      flushLoop_runs paths.length
        (buildLoop rest 1
          ⟨PathT.ofStr first, List.replicate (PathT.ofStr first).tokens.length 1, []⟩).ref.tokens.length
        (buildLoop rest 1
          ⟨PathT.ofStr first, List.replicate (PathT.ofStr first).tokens.length 1, []⟩).ref
        (buildLoop rest 1
          ⟨PathT.ofStr first, List.replicate (PathT.ofStr first).tokens.length 1, []⟩).counts
        1
        (buildLoop rest 1
          ⟨PathT.ofStr first, List.replicate (PathT.ofStr first).tokens.length 1, []⟩).runs
        (by omega)
        (fun i hi => by
          have himem : i <
              (buildLoop rest 1
                ⟨PathT.ofStr first,
                 List.replicate (PathT.ofStr first).tokens.length 1, []⟩).counts.length := by
            rw [hlen1]
            exact hi
          have := hcnt1 _ (getD_mem_of_lt himem)
          omega)
    rw [heq] at hmem
    simp only [List.reverse_append, List.reverse_cons, List.reverse_nil, List.nil_append,
      List.map_append, List.map_cons, List.map_nil, List.cons_append, List.tail_cons] at hmem
    rcases List.mem_append.mp hmem with h1 | h1
    · obtain ⟨q, hq, hfq⟩ := List.mem_map.mp h1
      have hgq := hgood q (List.mem_reverse.mp hq)
      rw [← hfq]
      dsimp only
      omega
    · obtain ⟨q, hq, hfq⟩ := List.mem_map.mp h1
      have hgq := hruns1 q (List.mem_reverse.mp hq)
      rw [← hfq]
      dsimp only
      omega

/-- C9 counterexample: a sorted singleton input.  The final flush of
`Prefix::build` pushes the depth-0 run unconditionally — its guard is
`i == 0 || count > 1 && ...` — so the unshared segment "/a" is emitted as a
run spanning the single record range `[0, 1)`, contradicting the claim that
singleton segments never produce runs.  The "/go" run of the C8 fixture,
spanning `[0, 1)`, is a second instance. -/
theorem C9_counterexample :
    Prefix.build [toStr "/a"] = [⟨toStr "/a", 0, 1⟩] ∧
    (PrefixRun.mk (toStr "/a") 0 1).stop - (PrefixRun.mk (toStr "/a") 0 1).start = 1 :=
  ⟨rfl, rfl⟩

/-- Witness for the amended C9 on the C8 fixture paths. -/
theorem C9_wide_runs_except_head_witness :
    paths6.Pairwise (fun a b => lcmp a b = .lt) ∧
    (∀ p ∈ paths6, (splitChar '/' (trimChar '/' p)).length ≤ MAX_LEVEL) ∧
    (PrefixRun.mk (toStr "/languages") 1 6) ∈ (Prefix.build paths6).tail ∧
    (PrefixRun.mk (toStr "/languages") 1 6).start + 2 ≤
      (PrefixRun.mk (toStr "/languages") 1 6).stop :=
  ⟨by decide, by decide, by decide,
   C9_wide_runs_except_head paths6 (by decide) (by decide) _ (by decide)⟩
